import Mathlib

/-!
Verification of the react-tsdoc documentation extractor.

This file shallowly embeds the core of the repository — the document model
(`src/core/types.ts`), the declaration classifier (`src/core/analyzer.ts`),
the comment interpreter (`src/core/parser.ts`), the dependency resolver and
declaration-module generator (`src/generators/types/module.ts`), and the
related-types computation of the documentation renderers
(`src/utils/type-helpers.ts`, `src/generators/docs/*.ts`) — and proves or
refutes the frozen claims about them.

JavaScript strings are modelled as Lean `String`s processed over their
character lists; the regular expressions used by the source are modelled by
dedicated scanning functions that reproduce the engine's leftmost-match and
backtracking behaviour on the regexes actually occurring in the source.
JavaScript objects used as string-keyed maps are modelled as association
lists in insertion order (`SMap`), with `setKey` reproducing the
replace-in-place / append-at-end update semantics of property assignment.
-/

namespace ReactTsdoc

/-! ## Character classes (JS regex semantics, non-unicode mode) -/

/-- JS `\w` (word character): `[A-Za-z0-9_]`. -/
def isWordChar (c : Char) : Bool :=
  (97 ≤ c.toNat && c.toNat ≤ 122) || (65 ≤ c.toNat && c.toNat ≤ 90) ||
  (48 ≤ c.toNat && c.toNat ≤ 57) || c = '_'

/-- Uppercase ASCII letter `[A-Z]`. -/
def isUpperAZ (c : Char) : Bool := 65 ≤ c.toNat && c.toNat ≤ 90

/-- JS `\s` on the whitespace characters that occur in source text
(space, tab, newline, carriage return, vertical tab, form feed). -/
def isWsChar (c : Char) : Bool :=
  c = ' ' || c = '\t' || c = '\n' || c = '\r' || c.toNat = 11 || c.toNat = 12

/-! ## Maximal word runs

A JS regex of the shape `\b(tok)\b` where `tok` is built from word
characters matches exactly at maximal runs of word characters.  `wordRuns`
splits a character list into its maximal `\w`-runs. -/

def wordRunsAux : List Char → List Char → List (List Char)
  | [], acc => if acc.isEmpty then [] else [acc.reverse]
  | c :: rest, acc =>
    if isWordChar c then wordRunsAux rest (c :: acc)
    else if acc.isEmpty then wordRunsAux rest []
    else acc.reverse :: wordRunsAux rest []

def wordRuns (l : List Char) : List (List Char) := wordRunsAux l []

/-- `/\bword\b/.test(s)` for a word built from word characters:
some maximal word run of `s` equals `word`. -/
def containsWord (s word : String) : Bool :=
  (wordRuns s.data).any (· = word.data)

/-- `s` ends with `tok` and the character preceding the `tok` suffix is a
word boundary (start of string or a non-word character).  This is
`/\btok$/.test(s)` for `tok` starting with a word character. -/
def endsWithBounded (s tok : String) : Bool :=
  let r := s.data.reverse
  let rt := tok.data.reverse
  rt.isPrefixOf r &&
    (match r.drop rt.length with
     | [] => true
     | c :: _ => !isWordChar c)

/-- `/\b(React\.)?(memo|forwardRef)$/.test(s)` (wrapper-name filter of
`analyzeComponentPattern`). -/
def isMemoOrForwardRefName (s : String) : Bool :=
  endsWithBounded s "memo" || endsWithBounded s "forwardRef" ||
  endsWithBounded s "React.memo" || endsWithBounded s "React.forwardRef"

/-- `/\b(React\.)?forwardRef$/.test(s)`. -/
def isForwardRefName (s : String) : Bool :=
  endsWithBounded s "forwardRef" || endsWithBounded s "React.forwardRef"

/-- `/\b(React\.)?memo$/.test(s)`. -/
def isMemoName (s : String) : Bool :=
  endsWithBounded s "memo" || endsWithBounded s "React.memo"

/-- `/\bmemo$/.test(s)` (memo test of `generateComplexComponentType`). -/
def isMemoEnd (s : String) : Bool := endsWithBounded s "memo"

/-! ## The capitalized-identifier token pattern

`extractTypeNames` in `module.ts` / `type-helpers.ts` repeatedly applies
`/\b([A-Z][a-zA-Z0-9]*)\b/g` and drops a fixed list of well-known names.
A match of that pattern is exactly a maximal word run that starts with an
uppercase ASCII letter and contains no underscore. -/

def builtinTypeNames : List String :=
  ["React", "Promise", "Array", "Map", "Set", "Date", "Error", "String",
   "Number", "Boolean"]

def extractTypeNames (s : String) : List String :=
  ((wordRuns s.data).filterMap fun r =>
    match r with
    | [] => none
    | c :: _ =>
      if isUpperAZ c && r.all (· ≠ '_') then some (String.mk r) else none
    ).filter (fun n => !builtinTypeNames.contains n)

/-! ## JS string helpers -/

/-- `String.prototype.trim()` restricted to the whitespace set above. -/
def jsTrim (s : String) : String :=
  String.mk (((s.data.dropWhile isWsChar).reverse.dropWhile isWsChar).reverse)

/-- `line.trimRight()`. -/
def jsTrimRight (l : List Char) : List Char :=
  (l.reverse.dropWhile isWsChar).reverse

/-- Split a character list at `'\n'` (JS `code.split('\n')`). -/
def splitLinesAux : List Char → List Char → List (List Char)
  | [], acc => [acc.reverse]
  | c :: rest, acc =>
    if c = '\n' then acc.reverse :: splitLinesAux rest []
    else splitLinesAux rest (c :: acc)

def splitLines (s : String) : List (List Char) := splitLinesAux s.data []

/-- `indentCode` from `src/utils/file.ts`: trim each line on the right and
prefix it with `chars`. -/
def indentCode (code : String) (chars : String) : String :=
  String.intercalate "\n"
    ((splitLines code).map fun line => chars ++ String.mk (jsTrimRight line))

/-- `s.length === 0`, over the character list. -/
def strIsEmpty (s : String) : Bool := s.data.isEmpty

/-- JS `String.prototype.startsWith`, over the character lists. -/
def strStartsWith (s pre : String) : Bool := pre.data.isPrefixOf s.data

/-- JS truthiness of an optional string: `undefined` and `""` are falsy. -/
def truthy (o : Option String) : Option String :=
  match o with
  | some s => if strIsEmpty s then none else some s
  | none => none

/-! ## String-keyed maps in insertion order -/

abbrev SMap (α : Type) := List (String × α)

def mapLookup {α : Type} : SMap α → String → Option α
  | [], _ => none
  | (k, v) :: rest, key => if k = key then some v else mapLookup rest key

/-- `obj[key] = value`: replace in place if present, else append. -/
def setKey {α : Type} : SMap α → String → α → SMap α
  | [], key, v => [(key, v)]
  | (k, w) :: rest, key, v =>
    if k = key then (key, v) :: rest else (k, w) :: setKey rest key v

/-! ## Models of the individual regexes used by the source

Each matcher reproduces the leftmost-match scan of `String.prototype.match`
and the backtracking of the concrete pattern. -/

/-- Generic leftmost scan: find the first position where the literal `pat`
is a prefix and the continuation `cont` succeeds on the remainder; on
failure the scan advances one character (as the regex engine does). -/
def scanPrefixP {α : Type} (pat : List Char) (cont : List Char → Option α) :
    List Char → Option α
  | [] => none
  | c :: rest =>
    if pat.isPrefixOf (c :: rest) then
      match cont ((c :: rest).drop pat.length) with
      | some r => some r
      | none => scanPrefixP pat cont rest
    else scanPrefixP pat cont rest

/-- One attempt of `\s+([^{]+)` right after a literal `extends`:
greedy whitespace, then at least one non-`{` character; when only
whitespace follows, backtracking hands the final whitespace character to
the capture (provided `\s+` keeps at least one). -/
def extendsAfter (l : List Char) : Option (List Char) :=
  let w := l.takeWhile isWsChar
  let r := l.drop w.length
  if w.isEmpty then none
  else
    match r with
    | c :: _ =>
      if c = '{' then
        match w.reverse with
        | lastWs :: _ :: _ => some [lastWs]
        | _ => none
      else some (r.takeWhile (· ≠ '{'))
    | [] =>
      match w.reverse with
      | lastWs :: _ :: _ => some [lastWs]
      | _ => none

/-- `s.match(/extends\s+([^{]+)/)`, returning the capture group. -/
def extendsCapture (s : String) : Option String :=
  (scanPrefixP "extends".data extendsAfter s.data).map String.mk

/-- `(.+)$` applied to the whole remainder `b` (JS `$` without `/m`
matches at the end of the string or just before one final newline; `.`
never matches a newline). -/
def dotPlusEnd (b : List Char) : Option (List Char) :=
  let core := match b.reverse with
    | '\n' :: restRev => restRev.reverse
    | _ => b
  if core.isEmpty || core.contains '\n' then none else some core

/-- Backtracking over `\s*` followed by `(.+)$`: the greedy whitespace run
shrinks until the tail matches. -/
def wsDotPlusGo (u : List Char) : Nat → Option (List Char)
  | 0 => dotPlusEnd u
  | k + 1 =>
    match dotPlusEnd (u.drop (k + 1)) with
    | some c => some c
    | none => wsDotPlusGo u k

def wsDotPlusEnd (u : List Char) : Option (List Char) :=
  wsDotPlusGo u (u.takeWhile isWsChar).length

/-- `[^)]*\)\s*=>\s*(.+)$` at the position right after an opening paren. -/
def arrowTail (l : List Char) : Option (List Char) :=
  let inside := l.takeWhile (· ≠ ')')
  match l.drop inside.length with
  | ')' :: rest =>
    let rest2 := rest.dropWhile isWsChar
    if "=>".data.isPrefixOf rest2 then wsDotPlusEnd (rest2.drop 2) else none
  | _ => none

/-- `s.match(/\(\s*[^)]*\)\s*=>\s*(.+)$/)` — the call-signature pattern of
the hook branch of `parseVariableDeclaration` (note `\s ⊆ [^)]`, so the
leading `\s*[^)]*` collapses to `[^)]*`). -/
def callSigCapture (s : String) : Option String :=
  (scanPrefixP "(".data arrowTail s.data).map String.mk

/-- `s.match(/^\([^)]*\)\s*=>\s*(.+)$/)` — the anchored variant used by the
function branch of `parseVariableDeclaration`. -/
def anchoredCallSigCapture (s : String) : Option String :=
  match s.data with
  | '(' :: rest => (arrowTail rest).map String.mk
  | _ => none

/-- `s.match(/=>\s*(.+)$/)`. -/
def arrowCaptureAux : List Char → Option (List Char)
  | [] => none
  | c :: rest =>
    if c = '=' then
      match rest with
      | '>' :: rest2 =>
        match wsDotPlusEnd rest2 with
        | some cap => some cap
        | none => arrowCaptureAux rest
      | _ => arrowCaptureAux rest
    else arrowCaptureAux rest

def arrowCapture (s : String) : Option String :=
  (arrowCaptureAux s.data).map String.mk

/-- `s.match(/<([^>]+)>/)`: first `<` followed by a nonempty `>`-free run
and a closing `>`. -/
def angleCaptureAux : List Char → Option (List Char)
  | [] => none
  | c :: rest =>
    if c = '<' then
      let inside := rest.takeWhile (· ≠ '>')
      if inside.isEmpty then angleCaptureAux rest
      else
        match rest.drop inside.length with
        | '>' :: _ => some inside
        | _ => angleCaptureAux rest
    else angleCaptureAux rest

def angleCapture (s : String) : Option String :=
  (angleCaptureAux s.data).map String.mk

/-- `({[^}]*}|[^>]+)>` at a fixed position: the brace alternative (which
must be followed directly by `>`), else the greedy `>`-free alternative. -/
def braceAltThenGt (r : List Char) : Option (List Char) :=
  match r with
  | '{' :: r2 =>
    let inside := r2.takeWhile (· ≠ '}')
    match r2.drop inside.length with
    | '}' :: '>' :: _ => some ('{' :: (inside ++ ['}']))
    | _ => none
  | _ => none

def nonGtAltThenGt (r : List Char) : Option (List Char) :=
  let x := r.takeWhile (· ≠ '>')
  if x.isEmpty then none
  else
    match r.drop x.length with
    | '>' :: _ => some x
    | _ => none

def altThenGt (r : List Char) : Option (List Char) :=
  match braceAltThenGt r with
  | some c => some c
  | none => nonGtAltThenGt r

/-- `\s*({[^}]*}|[^>]+)>` with the whitespace run shrinking on
backtracking (whitespace is also `[^>]`). -/
def wsAltGo (u : List Char) : Nat → Option (List Char)
  | 0 => altThenGt u
  | k + 1 =>
    match altThenGt (u.drop (k + 1)) with
    | some c => some c
    | none => wsAltGo u k

def wsAltThenGt (u : List Char) : Option (List Char) :=
  wsAltGo u (u.takeWhile isWsChar).length

/-- `s.match(/React\.FunctionComponent<({[^}]*}|[^>]+)>/) ||
s.match(/React\.FC<({[^}]*}|[^>]+)>/)`. -/
def reactFCPropCapture (s : String) : Option String :=
  match scanPrefixP "React.FunctionComponent<".data altThenGt s.data with
  | some c => some (String.mk c)
  | none => (scanPrefixP "React.FC<".data altThenGt s.data).map String.mk

/-- `s.match(/<\s*({[^}]*}|[^>]+)>/)`. -/
def angleWsAltCapture (s : String) : Option String :=
  (scanPrefixP "<".data wsAltThenGt s.data).map String.mk

/-- Tail of `/<React\.RefAttributes<([^>]+)>\s*&\s*({[^}]*}|[^>]+)>/`
after the literal prefix; returns (ref capture, prop capture). -/
def refAttrTail (r : List Char) : Option (List Char × List Char) :=
  let inside := r.takeWhile (· ≠ '>')
  if inside.isEmpty then none
  else
    match r.drop inside.length with
    | '>' :: rest =>
      match rest.dropWhile isWsChar with
      | '&' :: rest3 => (wsAltThenGt rest3).map (fun c => (inside, c))
      | _ => none
    | _ => none

def forwardRefExoticCapture (s : String) : Option (String × String) :=
  (scanPrefixP "<React.RefAttributes<".data refAttrTail s.data).map
    (fun p => (String.mk p.1, String.mk p.2))

/-- `(?:,\s*({[^}]*}|[^>]+))?>` after the first capture group of the
`React.Component` pattern: the greedy optional comma part, else a direct
`>`. -/
def compAfterG1 (rest : List Char) : Option (Option (List Char)) :=
  match rest with
  | ',' :: r2 =>
    match wsAltThenGt r2 with
    | some g2 => some (some g2)
    | none => none
  | '>' :: _ => some none
  | _ => none

/-- `[^,]+` first group with backtracking from the greedy maximum. -/
def compG1Len (r : List Char) : Nat → Option (List Char × Option (List Char))
  | 0 => none
  | k + 1 =>
    match compAfterG1 (r.drop (k + 1)) with
    | some g2 => some (r.take (k + 1), g2)
    | none => compG1Len r k

def compG1NonComma (r : List Char) : Option (List Char × Option (List Char)) :=
  compG1Len r (r.takeWhile (· ≠ ',')).length

def compG1Try (r : List Char) : Option (List Char × Option (List Char)) :=
  match r with
  | '{' :: r2 =>
    let inside := r2.takeWhile (· ≠ '}')
    (match r2.drop inside.length with
     | '}' :: rest =>
       match compAfterG1 rest with
       | some g2 => some ('{' :: (inside ++ ['}']), g2)
       | none => compG1NonComma r
     | _ => compG1NonComma r)
  | _ => compG1NonComma r

/-- `s.match(/<({[^}]*}|[^,]+)(?:,\s*({[^}]*}|[^>]+))?>/)` — the
`React.Component<P, S>` argument pattern; returns (first capture,
optional second capture). -/
def reactComponentCapture (s : String) : Option (String × Option String) :=
  (scanPrefixP "<".data compG1Try s.data).map
    (fun p => (String.mk p.1, p.2.map String.mk))

/-- `code.replace(/^\s*export\s*/, '')`. -/
def stripLeadingExport (s : String) : String :=
  let r := s.data.dropWhile isWsChar
  if "export".data.isPrefixOf r then String.mk ((r.drop 6).dropWhile isWsChar)
  else s

/-- `code.replace(/^\s*(declare|export)\s*/, '')`. -/
def stripLeadingDeclareOrExport (s : String) : String :=
  let r := s.data.dropWhile isWsChar
  if "declare".data.isPrefixOf r then String.mk ((r.drop 7).dropWhile isWsChar)
  else if "export".data.isPrefixOf r then
    String.mk ((r.drop 6).dropWhile isWsChar)
  else s

/-- `type.replace(/\[\]$/, '')` from `linkedType`. -/
def stripTrailingBrackets (s : String) : String :=
  match s.data.reverse with
  | ']' :: '[' :: restRev => String.mk restRev.reverse
  | _ => s

/-! ## The document model (`src/core/types.ts`) -/

structure IInterfaceMember where
  name : String
  type : String
  comment : String
  isOptional : Bool
  defaultValue : Option String
  exampleValue : Option String
  deriving DecidableEq, Repr

structure IInterfaceDeclaration where
  name : String
  comment : String
  members : List IInterfaceMember
  code : String
  deriving DecidableEq, Repr

structure IUnion where
  items : List String
  comment : String
  code : String
  deriving DecidableEq, Repr

structure IEnumMember where
  name : String
  value : Option String
  deriving DecidableEq, Repr

structure IEnumDeclaration where
  name : String
  comment : String
  members : List IEnumMember
  code : String
  deriving DecidableEq, Repr

structure ITypeAlias where
  name : String
  type : String
  comment : String
  code : String
  deriving DecidableEq, Repr

structure IFunctionParam where
  name : String
  type : String
  deriving DecidableEq, Repr

/-- `IFunctionSignature`; the TS field `return` is spelled `ret`. -/
structure IFunctionSignature where
  parameters : List IFunctionParam
  ret : String
  comment : String
  code : String
  deriving DecidableEq, Repr

structure IReactHookParam where
  name : String
  type : String
  deriving DecidableEq, Repr

structure IReactHook where
  name : String
  type : String
  parameters : List IReactHookParam
  comment : String
  deriving DecidableEq, Repr

/-- The component-kind tag `'class' | 'functional' | 'forwardRef'`. -/
inductive ComponentKind where
  | classKind
  | functional
  | forwardRef
  deriving DecidableEq, Repr

/-- The literal strings of the component-kind tag. -/
def ComponentKind.text : ComponentKind → String
  | .classKind => "class"
  | .functional => "functional"
  | .forwardRef => "forwardRef"

/-- `IReactComponent` (the unused `exportInfo` field is omitted; the
optional `wrappers` array is modelled as a list, `undefined` and `[]`
being indistinguishable to all readers). -/
structure IReactComponent where
  name : String
  propType : String
  stateType : Option String := none
  refType : Option String := none
  comment : String
  type : Option ComponentKind := none
  wrappers : List String := []
  referencedComponent : Option String := none
  deriving DecidableEq, Repr

structure IDocInfo where
  interfaces : SMap IInterfaceDeclaration := []
  components : SMap IReactComponent := []
  hooks : SMap IReactHook := []
  functions : SMap IFunctionSignature := []
  unions : SMap IUnion := []
  enums : SMap IEnumDeclaration := []
  typeAliases : SMap ITypeAlias := []
  deriving DecidableEq, Repr

/-! ## Comment interpreter (`src/core/parser.ts`)

The structured-comment parser `@microsoft/tsdoc` is an external
collaborator of the repository (spec §1, §4.1: a black box that, given a
raw comment string, returns summary text, example blocks and recognized
modifier flags).  Its behaviour is abstracted as an oracle. -/

/-- Modifier flags recognized by the comment interpreter
(`ComponentFlags` bitmask with the `Export` and `Hook` bits). -/
structure ComponentFlags where
  exportFlag : Bool
  hookFlag : Bool
  deriving DecidableEq, Repr

def ComponentFlags.none : ComponentFlags := ⟨false, false⟩

/-- Modelled from the spec: the outcome of the black-box comment parser
(`@microsoft/tsdoc`, not part of this repository's sources).  On success
it yields the concatenated summary excerpts, the `@example` block bodies
in document order, and whether the registered `@export` / `@hook`
modifier tags are present; `malformed` stands for an input that fails to
parse as a structured comment. -/
inductive TSDocOutcome where
  | ok (summary : String) (examples : List String) (hasExportTag hasHookTag : Bool)
  | malformed
  deriving DecidableEq, Repr

/-- An oracle instance of the black-box comment parser. -/
abbrev TSDocOracle := String → TSDocOutcome

/-- `parseTSDocComment` from `src/core/parser.ts`, over the oracle: it
forwards the parse result and — per the black-box contract of spec §4.1 —
yields an empty summary, no examples and no flags when the input fails to
parse, instead of raising. -/
def parseTSDocComment (oracle : TSDocOracle) (comment : String) :
    String × List String × ComponentFlags :=
  match oracle comment with
  | .ok summary examples e h => (summary, examples, ⟨e, h⟩)
  | .malformed => ("", [], ComponentFlags.none)

/-- `hasExportAnnotation` from `src/utils/type-helpers.ts`: the export bit
of the parsed flags (the `try`/`catch` around the call cannot fire, the
interpreter being total). -/
def hasExportAnnotation (oracle : TSDocOracle) (comment : String) : Bool :=
  (parseTSDocComment oracle comment).2.2.exportFlag

/-- `linkedType` from `src/utils/type-helpers.ts`. -/
def linkedType (type : String) (d : IDocInfo) : String :=
  let cleanType := stripTrailingBrackets type
  if (mapLookup d.interfaces cleanType).isSome ||
     (mapLookup d.unions cleanType).isSome ||
     (mapLookup d.enums cleanType).isSome ||
     (mapLookup d.typeAliases cleanType).isSome then
    "[" ++ type ++ "](../types/" ++ cleanType ++ ".md)"
  else type

/-! ## Dependency resolver (`collectAllDependentTypes`, `module.ts`)

`collectDependencies` is a recursive saturation over a mutable visited
set.  It is embedded with an explicit fuel argument; `closureFuel` below
supplies enough fuel that the cut-off branch is unreachable (proved in
the lemmas for claim C2), so the embedded function computes the same set
as the unbounded recursion of the source. -/

/-- The names `collectDependencies` recurses into from a resolved
interface: the capture of `/extends\s+([^{]+)/` over the literal code,
then every member's type text. -/
def interfaceCandidates (intf : IInterfaceDeclaration) : List String :=
  (match extendsCapture intf.code with
   | some s => extractTypeNames s
   | none => []) ++
  intf.members.flatMap (fun m => extractTypeNames m.type)

/-- All names `collectDependencies typeName` recurses into, in execution
order over the non-exclusive kind branches (interfaces, unions,
enums — which contribute none — type aliases, functions). -/
def candidates (d : IDocInfo) (n : String) : List String :=
  (match mapLookup d.interfaces n with
   | some intf => interfaceCandidates intf
   | none => []) ++
  (match mapLookup d.unions n with
   | some u => u.items.flatMap extractTypeNames
   | none => []) ++
  (match mapLookup d.typeAliases n with
   | some a => extractTypeNames a.type
   | none => []) ++
  (match mapLookup d.functions n with
   | some f => extractTypeNames f.ret ++
       f.parameters.flatMap (fun p => extractTypeNames p.type)
   | none => [])

/-- A name is added to `collectedTypes` iff it resolves in one of the
five type-bearing kind maps. -/
def resolves (d : IDocInfo) (n : String) : Bool :=
  (mapLookup d.interfaces n).isSome || (mapLookup d.unions n).isSome ||
  (mapLookup d.enums n).isSome || (mapLookup d.typeAliases n).isSome ||
  (mapLookup d.functions n).isSome

/-- `collectDependencies`, with state `(visited, collectedTypes)`. -/
def collectDeps (d : IDocInfo) : Nat → List String × List String → String →
    List String × List String
  | fuel, (visited, collected), n =>
    if visited.contains n then (visited, collected)
    else
      let visited' := n :: visited
      let collected' := if resolves d n then collected ++ [n] else collected
      match fuel with
      | 0 => (visited', collected')
      | f + 1 =>
        (candidates d n).foldl (fun st t => collectDeps d f st t)
          (visited', collected')

/-- Every name any `collectDependencies` call can recurse into. -/
def allCandidateNames (d : IDocInfo) : List String :=
  d.interfaces.flatMap (fun p => interfaceCandidates p.2) ++
  d.unions.flatMap (fun p => p.2.items.flatMap extractTypeNames) ++
  d.typeAliases.flatMap (fun p => extractTypeNames p.2.type) ++
  d.functions.flatMap (fun p => extractTypeNames p.2.ret ++
    p.2.parameters.flatMap (fun q => extractTypeNames q.type))

def closureFuel (d : IDocInfo) (seeds : List String) : Nat :=
  ((seeds ++ allCandidateNames d).dedup).length

/-- Saturate `collectDependencies` from a list of seed names with a
shared visited set, returning `collectedTypes`. -/
def closureFrom (d : IDocInfo) (seeds : List String) : List String :=
  (seeds.foldl (fun st n => collectDeps d (closureFuel d seeds) st n)
    ([], [])).2

/-- The names fed to `collectDependencies` for one export-annotated
component: its prop/state/ref type texts and, when its back-reference
resolves, the canonical component's prop/state/ref type texts. -/
def componentSeedNames (d : IDocInfo) (comp : IReactComponent) : List String :=
  extractTypeNames comp.propType ++
  (match truthy comp.stateType with
   | some s => extractTypeNames s
   | none => []) ++
  (match truthy comp.refType with
   | some s => extractTypeNames s
   | none => []) ++
  (match truthy comp.referencedComponent with
   | some r =>
     match mapLookup d.components r with
     | some refComp =>
       extractTypeNames refComp.propType ++
       (match truthy refComp.stateType with
        | some s => extractTypeNames s
        | none => []) ++
       (match truthy refComp.refType with
        | some s => extractTypeNames s
        | none => [])
     | none => []
   | none => [])

def functionSeedNames (f : IFunctionSignature) : List String :=
  extractTypeNames f.ret ++ f.parameters.flatMap (fun p => extractTypeNames p.type)

def hookSeedNames (h : IReactHook) : List String :=
  extractTypeNames h.type ++ h.parameters.flatMap (fun p => extractTypeNames p.type)

/-- All seed names of `collectAllDependentTypes`, in the source's
iteration order: export-annotated components, then functions, then
hooks. -/
def seedNames (oracle : TSDocOracle) (d : IDocInfo) : List String :=
  (d.components.filter (fun p => hasExportAnnotation oracle p.2.comment)).flatMap
    (fun p => componentSeedNames d p.2) ++
  (d.functions.filter (fun p => hasExportAnnotation oracle p.2.comment)).flatMap
    (fun p => functionSeedNames p.2) ++
  (d.hooks.filter (fun p => hasExportAnnotation oracle p.2.comment)).flatMap
    (fun p => hookSeedNames p.2)

/-- `collectAllDependentTypes` from `src/generators/types/module.ts`. -/
def collectAllDependentTypes (oracle : TSDocOracle) (d : IDocInfo) :
    List String :=
  closureFrom d (seedNames oracle d)

/-! ## `generateComplexComponentType` (`module.ts`) -/

/-- `generateComplexComponentType`: when the record's back-reference
resolves, all field lookups use the referenced record; a
`React.MemoExoticComponent` wrapper is added when some wrapper name
matches `/\bmemo$/`. -/
def generateComplexComponentType (comp : IReactComponent) (d : IDocInfo)
    (linkTypes : Bool) : String :=
  let typeHelper := fun (t : String) => if linkTypes then linkedType t d else t
  let baseType :=
    match truthy comp.referencedComponent with
    | some r =>
      match mapLookup d.components r with
      | some referencedComp =>
        (match referencedComp.type with
         | some .classKind =>
           "React.Component<" ++ typeHelper referencedComp.propType ++ ", " ++
             typeHelper ((truthy referencedComp.stateType).getD "any") ++ ">"
         | some .forwardRef =>
           "React.ForwardRefExoticComponent<React.RefAttributes<" ++
             typeHelper ((truthy referencedComp.refType).getD "any") ++ "> & " ++
             typeHelper referencedComp.propType ++ ">"
         | _ => "React.FunctionComponent<" ++ typeHelper referencedComp.propType ++ ">")
      | none =>
        (match comp.type with
         | some .classKind =>
           "React.Component<" ++ typeHelper comp.propType ++ ", " ++
             typeHelper ((truthy comp.stateType).getD "any") ++ ">"
         | some .forwardRef =>
           "React.ForwardRefExoticComponent<React.RefAttributes<" ++
             typeHelper ((truthy comp.refType).getD "any") ++ "> & " ++
             typeHelper comp.propType ++ ">"
         | _ => "React.FunctionComponent<" ++ typeHelper comp.propType ++ ">")
    | none =>
      (match comp.type with
       | some .classKind =>
         "React.Component<" ++ typeHelper comp.propType ++ ", " ++
           typeHelper ((truthy comp.stateType).getD "any") ++ ">"
       | some .forwardRef =>
         "React.ForwardRefExoticComponent<React.RefAttributes<" ++
           typeHelper ((truthy comp.refType).getD "any") ++ "> & " ++
           typeHelper comp.propType ++ ">"
       | _ => "React.FunctionComponent<" ++ typeHelper comp.propType ++ ">")
  if comp.wrappers.any isMemoEnd then
    "React.MemoExoticComponent<" ++ baseType ++ ">"
  else baseType

/-- Spec-side definition for the back-reference invariant: the base
signature type rendered directly from a single record's own kind and
prop/state/ref fields (no back-reference following, no memo wrapper). -/
def componentBaseTypeOfFields (d : IDocInfo) (linkTypes : Bool)
    (c : IReactComponent) : String :=
  let typeHelper := fun (t : String) => if linkTypes then linkedType t d else t
  match c.type with
  | some .classKind =>
    "React.Component<" ++ typeHelper c.propType ++ ", " ++
      typeHelper ((truthy c.stateType).getD "any") ++ ">"
  | some .forwardRef =>
    "React.ForwardRefExoticComponent<React.RefAttributes<" ++
      typeHelper ((truthy c.refType).getD "any") ++ "> & " ++
      typeHelper c.propType ++ ">"
  | _ => "React.FunctionComponent<" ++ typeHelper c.propType ++ ">"

/-! ## `generateExportModule` (`module.ts`)

The emitted module text is a header, one indented block per emitted
entry, and a footer.  The entries and the `emitted` name set are built
exactly as the source does: first the dependency closure in its
iteration order, then export-annotated components, functions and hooks,
each guarded by the `emitted` set. -/

structure ModuleEntry where
  name : String
  commentPart : String
  declPart : String
  deriving DecidableEq, Repr

def ModuleEntry.text (e : ModuleEntry) : String := e.commentPart ++ e.declPart

def paramsText (params : List IFunctionParam) : String :=
  String.intercalate ", " (params.map fun p => p.name ++ ": " ++ p.type)

def hookParamsText (params : List IReactHookParam) : String :=
  String.intercalate ", " (params.map fun p => p.name ++ ": " ++ p.type)

/-- One iteration of the dependent-types emission loop. -/
def closureEntryStep (d : IDocInfo) (st : List String × List ModuleEntry)
    (typeName : String) : List String × List ModuleEntry :=
  let (emitted, entries) := st
  if emitted.contains typeName then st
  else
    match mapLookup d.interfaces typeName with
    | some intf =>
      (typeName :: emitted, entries ++
        [⟨typeName, "\n" ++ intf.comment ++ "\n",
          "export " ++ stripLeadingExport intf.code ++ "\n"⟩])
    | none =>
      match mapLookup d.unions typeName with
      | some union =>
        (typeName :: emitted, entries ++
          [⟨typeName, "\n" ++ union.comment ++ "\n",
            "export " ++ stripLeadingExport union.code ++ "\n"⟩])
      | none =>
        match mapLookup d.enums typeName with
        | some enumObj =>
          (typeName :: emitted, entries ++
            [⟨typeName, "\n" ++ enumObj.comment ++ "\n",
              "export " ++ stripLeadingDeclareOrExport enumObj.code ++ "\n"⟩])
        | none =>
          match mapLookup d.typeAliases typeName with
          | some aliasRec =>
            (typeName :: emitted, entries ++
              [⟨typeName, "\n" ++ aliasRec.comment ++ "\n",
                "export " ++ stripLeadingExport aliasRec.code ++ "\n"⟩])
          | none =>
            match mapLookup d.functions typeName with
            | some func =>
              (typeName :: emitted, entries ++
                [⟨typeName,
                  (if func.comment ≠ "" then "\n" ++ func.comment ++ "\n" else "\n"),
                  "export type " ++ typeName ++ " = (" ++
                    paramsText func.parameters ++ ") => " ++ func.ret ++ ";\n"⟩])
            | none => st

/-- One iteration of the exported-components emission loop. -/
def componentEntryStep (oracle : TSDocOracle) (d : IDocInfo)
    (st : List String × List ModuleEntry) (comp : IReactComponent) :
    List String × List ModuleEntry :=
  let (emitted, entries) := st
  if emitted.contains comp.name then st
  else if hasExportAnnotation oracle comp.comment then
    (comp.name :: emitted, entries ++
      [⟨comp.name,
        (if comp.comment ≠ "" then "\n" ++ comp.comment ++ "\n" else "\n"),
        "export const " ++ comp.name ++ ": " ++
          generateComplexComponentType comp d false ++ ";\n"⟩])
  else st

/-- One iteration of the exported-functions emission loop (keyed by the
map key `fname`). -/
def functionEntryStep (oracle : TSDocOracle)
    (st : List String × List ModuleEntry) (p : String × IFunctionSignature) :
    List String × List ModuleEntry :=
  let (emitted, entries) := st
  let fname := p.1
  let f := p.2
  if emitted.contains fname then st
  else if hasExportAnnotation oracle f.comment then
    (fname :: emitted, entries ++
      [⟨fname,
        (if f.comment ≠ "" then "\n" ++ f.comment ++ "\n" else "\n"),
        "export function " ++ fname ++ "(" ++ paramsText f.parameters ++
          "): " ++ f.ret ++ ";\n"⟩])
  else st

/-- One iteration of the exported-hooks emission loop. -/
def hookEntryStep (oracle : TSDocOracle)
    (st : List String × List ModuleEntry) (hook : IReactHook) :
    List String × List ModuleEntry :=
  let (emitted, entries) := st
  if emitted.contains hook.name then st
  else if hasExportAnnotation oracle hook.comment then
    (hook.name :: emitted, entries ++
      [⟨hook.name,
        (if hook.comment ≠ "" then "\n" ++ hook.comment ++ "\n" else "\n"),
        "export function " ++ hook.name ++ "(" ++
          hookParamsText hook.parameters ++ "): " ++ hook.type ++ ";\n"⟩])
  else st

/-- The final `(emitted, entries)` state of `generateExportModule`'s four
emission loops, in the source's order: the dependency closure, then
export-annotated components, functions and hooks. -/
def moduleState (oracle : TSDocOracle) (d : IDocInfo) :
    List String × List ModuleEntry :=
  d.hooks.foldl (fun st p => hookEntryStep oracle st p.2)
    (d.functions.foldl (fun st p => functionEntryStep oracle st p)
      (d.components.foldl (fun st p => componentEntryStep oracle d st p.2)
        ((collectAllDependentTypes oracle d).foldl (closureEntryStep d)
          ([], []))))

/-- The emitted entries of `generateExportModule`, in emission order. -/
def moduleEntries (oracle : TSDocOracle) (d : IDocInfo) : List ModuleEntry :=
  (moduleState oracle d).2

/-- `generateExportModule`, taking the `moduleName` option (absent or
empty means no ambient-module wrapper). -/
def generateExportModule (oracle : TSDocOracle) (d : IDocInfo)
    (moduleName : Option String) : String :=
  let opened := (truthy moduleName).isSome
  let header :=
    match truthy moduleName with
    | some m => "declare module \"" ++ m ++ "\" \x7b\n"
    | none => ""
  let body := (moduleEntries oracle d).foldl
    (fun code e => code ++ indentCode e.text "    ") header
  if opened then body ++ "\n\x7d\n" else body

/-! ## `getRelatedTypes` (`src/utils/type-helpers.ts`) and the
"Related Types" sections of the documentation renderers -/

/-- `[...new Set(l)]`: deduplicate keeping first occurrences. -/
def jsSetDedupAux : List String → List String → List String
  | [], _ => []
  | x :: rest, seen =>
    if seen.contains x then jsSetDedupAux rest seen
    else x :: jsSetDedupAux rest (x :: seen)

def jsSetDedup (l : List String) : List String := jsSetDedupAux l []

/-- `collectRelatedTypes`, with state `(visited, relatedTypes)`: a name is
pushed iff it is unvisited and a member of the supplied closure set; the
recursion then expands the same type-bearing fields as the dependency
resolver (`candidates`; the source duplicates that branch structure,
minus the enum branch, which contributes no candidates either way). -/
def collectRelated (d : IDocInfo) (dep : List String) :
    Nat → List String × List String → String → List String × List String
  | fuel, (visited, rel), n =>
    if visited.contains n || !dep.contains n then (visited, rel)
    else
      let visited' := n :: visited
      let rel' := rel ++ [n]
      match fuel with
      | 0 => (visited', rel')
      | f + 1 =>
        (candidates d n).foldl (fun st t => collectRelated d dep f st t)
          (visited', rel')

/-- The duck-typed argument of `getRelatedTypes`: any record exposing
some of the type-bearing fields.  `parameters` carries the parameter
type texts; the TS field `return` is spelled `ret`. -/
structure RelatedItem where
  propType : Option String := none
  refType : Option String := none
  stateType : Option String := none
  parameters : Option (List String) := none
  ret : Option String := none
  type : Option String := none
  deriving DecidableEq, Repr

/-- One guarded entry call `if (field) collectRelatedTypes(field)` of
`getRelatedTypes` (the fuel is the closure-set length; every visited name
is a closure member, so this never cuts the recursion short). -/
def relOptStep (d : IDocInfo) (dep : List String)
    (st : List String × List String) (o : Option String) :
    List String × List String :=
  match truthy o with
  | some s => collectRelated d dep dep.length st s
  | none => st

/-- The guarded `item.parameters.forEach(p => collectRelatedTypes(p.type))`
entry call of `getRelatedTypes`. -/
def relParamsStep (d : IDocInfo) (dep : List String)
    (st : List String × List String) (po : Option (List String)) :
    List String × List String :=
  match po with
  | some ps => ps.foldl (fun st t => collectRelated d dep dep.length st t) st
  | none => st

/-- `getRelatedTypes(item, dependentTypes, docInfo)`. -/
def getRelatedTypes (item : RelatedItem) (dependentTypes : List String)
    (d : IDocInfo) : List String :=
  let st1 := relOptStep d dependentTypes ([], []) item.propType
  let st2 := relOptStep d dependentTypes st1 item.refType
  let st3 := relOptStep d dependentTypes st2 item.stateType
  let st4 := relParamsStep d dependentTypes st3 item.parameters
  let st5 := relOptStep d dependentTypes st4 item.ret
  let st6 := relOptStep d dependentTypes st5 item.type
  jsSetDedup st6.2

/-- The `RelatedItem` view of a component record, as
`generateComponentDocFromDocInfo` passes it to `getRelatedTypes`
(its `type` field holds the kind tag text). -/
def componentRelatedItem (comp : IReactComponent) : RelatedItem :=
  { propType := some comp.propType, refType := comp.refType,
    stateType := comp.stateType, type := comp.type.map ComponentKind.text }

/-- The names listed in the "Related Types" section of a component page
(`src/generators/docs/component.ts`) when a closure set is supplied. -/
def componentDocRelatedTypes (comp : IReactComponent) (d : IDocInfo)
    (dependentTypes : List String) : List String :=
  getRelatedTypes (componentRelatedItem comp) dependentTypes d

/-- The record a type documentation page is rendered from
(`typeInfo` in `src/generators/docs/type.ts`). -/
structure TypeDocInput where
  name : String
  comment : String
  code : String
  members : Option (List IInterfaceMember) := none
  items : Option (List String) := none
  type : Option String := none
  deriving DecidableEq, Repr

inductive TypeDocKind where
  | interfaceK
  | unionK
  | enumK
  | typeK
  deriving DecidableEq, Repr

/-- The `typeSearchTarget` object built by `generateTypeDocFromDocInfo`
before calling `getRelatedTypes`. -/
def typeSearchTarget (typeInfo : TypeDocInput) (typeKind : TypeDocKind) :
    RelatedItem :=
  let base : RelatedItem := { type := some typeInfo.name }
  match typeKind with
  | .interfaceK =>
    match typeInfo.members with
    | some members =>
      { base with
        propType := some typeInfo.name,
        parameters := some (members.map (·.type)),
        type := match extendsCapture typeInfo.code with
          | some e => some e
          | none => some typeInfo.name }
    | none => base
  | .unionK =>
    match typeInfo.items with
    | some items => { base with type := some (String.intercalate " | " items) }
    | none => base
  | .typeK =>
    match truthy typeInfo.type with
    | some t => { base with type := some t }
    | none => base
  | .enumK => base

/-- The names listed in the "Related Types" section of a type page:
`getRelatedTypes` over the search target, minus the page's own name. -/
def typeDocRelatedTypes (typeInfo : TypeDocInput) (typeKind : TypeDocKind)
    (d : IDocInfo) (dependentTypes : List String) : List String :=
  (getRelatedTypes (typeSearchTarget typeInfo typeKind) dependentTypes d).filter
    (fun t => t ≠ typeInfo.name)

/-! ## Declaration classifier (`src/core/analyzer.ts`)

The TypeScript syntax nodes relevant to the classifier are embedded as a
small AST.  The type-checking facilities of the source-parser oracle
(`ts.TypeChecker`) are abstracted as a `Checker` record: `typeAt` is
`typeToString(getTypeAtLocation(e))` on an expression (expressions that
only ever flow into the oracle are carried as opaque labels);
`declaredTypeText` is the declared type annotation text of the variable
declaration an identifier's symbol resolves to, when all of symbol,
declaration and annotation exist; `sigReturn` is
`typeToString(getReturnTypeOfSignature(getSignatureFromDeclaration(n)))`,
keyed by the declaration's source text. -/

structure FnParam where
  name : Option String
  type : Option String
  deriving DecidableEq, Repr

inductive Stmt where
  | ret (e : Option String)
  | otherS
  deriving DecidableEq, Repr

structure HeritageInfo where
  baseText : String
  typeArgs : List String
  deriving DecidableEq, Repr

inductive FnBody where
  | block (stmts : List Stmt)
  | exprB (e : String)
  deriving DecidableEq, Repr

inductive VarInit where
  | arrowFunction (isAsync : Bool) (params : List FnParam)
      (retType : Option String) (body : FnBody)
  | functionExpr (isAsync : Bool) (params : List FnParam)
      (retType : Option String) (body : FnBody)
  | callE (callee : String) (args : List VarInit)
  | ident (name : String)
  | classE (heritage : Option HeritageInfo)
  | otherE

structure Checker where
  typeAt : String → String
  declaredTypeText : String → Option String
  sigReturn : String → Option String

/-- The first-argument shapes `unwrapCallWrappers` descends into. -/
def isUnwrappableArg : VarInit → Bool
  | .arrowFunction .. => true
  | .functionExpr .. => true
  | .callE .. => true
  | .ident _ => true
  | .classE _ => true
  | .otherE => false

/-- `unwrapCallWrappers`: peel call expressions, recording each callee
text; stop at the first argument that is not a
function/arrow/call/identifier/class expression (the wrapper of a call
whose first argument is not descendable is still recorded, and the call
itself remains the innermost expression). -/
def unwrapCallWrappers : VarInit → VarInit × List String
  | .callE callee args =>
    (match args with
     | a :: _ =>
       if isUnwrappableArg a then
         let (inner, ws) := unwrapCallWrappers a
         (inner, callee :: ws)
       else (.callE callee args, [callee])
     | [] => (.callE callee args, [callee]))
  | e => (e, [])

/-- The result object of `parseTypeText` (every successful parse carries
a kind tag). -/
structure ParsedTypeInfo where
  ptype : ComponentKind
  propType : Option String := none
  refType : Option String := none
  stateType : Option String := none
  innerWrappers : List String := []
  deriving DecidableEq, Repr

/-- `parseTypeText` from `analyzeComponentPattern`: recognize
memo/forwardRef/functional/class component annotations by the regex
patterns of the source.  The recursion under `MemoExoticComponent`
shrinks the text by at least two characters, so the fuel (started at the
text length plus one by `parseTypeText`) never runs out. -/
def parseTypeTextF : Nat → String → Option ParsedTypeInfo
  | 0, _ => none
  | f + 1, typeText =>
    if containsWord typeText "MemoExoticComponent" then
      match angleCapture typeText with
      | none => none
      | some innerRaw =>
        let innerType := jsTrim innerRaw
        match parseTypeTextF f innerType with
        | some innerParsed =>
          some { innerParsed with
                 innerWrappers := innerParsed.innerWrappers ++ ["memo"] }
        | none =>
          some { ptype := .functional,
                 propType := some (((reactFCPropCapture innerType).map jsTrim).getD "any"),
                 innerWrappers := ["memo"] }
    else if containsWord typeText "ForwardRefExoticComponent" then
      match forwardRefExoticCapture typeText with
      | some (refT, propT) =>
        some { ptype := .forwardRef, refType := some (jsTrim refT),
               propType := some (jsTrim propT) }
      | none =>
        some { ptype := .forwardRef, refType := some "any", propType := some "any" }
    else if containsWord typeText "FunctionComponent" || containsWord typeText "FC" then
      some { ptype := .functional,
             propType := some (((angleWsAltCapture typeText).map jsTrim).getD "any") }
    else if containsWord typeText "Component" then
      match reactComponentCapture typeText with
      | some (g1, g2) =>
        some { ptype := .classKind, propType := some (jsTrim g1),
               stateType := some ((g2.map jsTrim).getD "any") }
      | none =>
        some { ptype := .classKind, propType := some "any", stateType := some "any" }
    else none

def parseTypeText (typeText : String) : Option ParsedTypeInfo :=
  parseTypeTextF (typeText.data.length + 1) typeText

/-- `analyzeComponentPattern` from `src/core/analyzer.ts`. -/
def analyzeComponentPattern (checker : Checker) (init : VarInit)
    (name comment : String) (d : IDocInfo) (declaredType : Option String) :
    Option IReactComponent :=
  let unwrapped := unwrapCallWrappers init
  let inner := unwrapped.1
  let parsedWrappers := unwrapped.2.filter isMemoOrForwardRefName
  let fromDeclared : Option IReactComponent :=
    match declaredType with
    | some typeText =>
      match parseTypeText typeText with
      | some parsed =>
        some { comment, name,
               propType := parsed.propType.getD "",
               refType := parsed.refType,
               stateType := parsed.stateType,
               type := some parsed.ptype,
               wrappers := parsed.innerWrappers,
               referencedComponent :=
                 match inner with
                 | .ident n => some n
                 | _ => none }
      | none => none
    | none => none
  match fromDeclared with
  | some c => some c
  | none =>
    let isWrappedForwardRef := parsedWrappers.any isForwardRefName
    let isWrappedMemo := parsedWrappers.any isMemoName
    if isWrappedForwardRef || isWrappedMemo then
      match inner with
      | .arrowFunction _ params _ _ =>
        (match params with
         | firstParam :: secondParam :: _ =>
           let propType := firstParam.type.getD "any"
           if isWrappedForwardRef then
             some { comment, propType, refType := secondParam.type, name,
                    type := some .forwardRef, wrappers := parsedWrappers }
           else
             some { comment, propType, name, type := some .functional,
                    wrappers := parsedWrappers }
         | [firstParam] =>
           some { comment, propType := firstParam.type.getD "any", name,
                  type := some .functional, wrappers := parsedWrappers }
         | [] =>
           some { comment, propType := "any", name, type := some .functional,
                  wrappers := parsedWrappers })
      | .functionExpr _ params _ _ =>
        (match params with
         | firstParam :: secondParam :: _ =>
           let propType := firstParam.type.getD "any"
           if isWrappedForwardRef then
             some { comment, propType, refType := secondParam.type, name,
                    type := some .forwardRef, wrappers := parsedWrappers }
           else
             some { comment, propType, name, type := some .functional,
                    wrappers := parsedWrappers }
         | [firstParam] =>
           some { comment, propType := firstParam.type.getD "any", name,
                  type := some .functional, wrappers := parsedWrappers }
         | [] =>
           some { comment, propType := "any", name, type := some .functional,
                  wrappers := parsedWrappers })
      | .ident referencedName =>
        let propType :=
          match checker.declaredTypeText referencedName with
          | some typeText =>
            some (((reactFCPropCapture typeText).map jsTrim).getD "any")
          | none => none
        some { comment, propType := propType.getD "any", name,
               type := some .functional, wrappers := parsedWrappers,
               referencedComponent := some referencedName }
      | _ =>
        some { comment, propType := "any", name, type := some .functional,
               wrappers := parsedWrappers }
    else
      match inner with
      | .ident referencedName =>
        (match mapLookup d.components referencedName with
         | some referencedComponent =>
           some { comment,
                  propType := referencedComponent.propType,
                  refType := referencedComponent.refType,
                  stateType := referencedComponent.stateType,
                  name,
                  type := referencedComponent.type,
                  wrappers := parsedWrappers,
                  referencedComponent := some referencedName }
         | none => none)
      | .classE heritage =>
        (match heritage with
         | some h =>
           if containsWord h.baseText "Component" ||
              containsWord h.baseText "PureComponent" then
             let propType := match h.typeArgs with
               | t0 :: _ => t0
               | [] => "any"
             let stateType := match h.typeArgs with
               | _ :: t1 :: _ => t1
               | _ => "any"
             some { comment, propType, stateType := some stateType, name,
                    type := some .classKind, wrappers := parsedWrappers }
           else none
         | none => none)
      | _ => none

/-! ### `parseVariableDeclaration` -/

structure VarDeclNode where
  name : String
  comment : String
  init : Option VarInit
  declaredType : Option String
  code : String

/-- Parameter list and inferred return type of a hook registered from a
function-shaped initializer (`init.parameters` / async modifier /
explicit return annotation / oracle on the final return). -/
def hookFromFn (checker : Checker) (isArrow isAsync : Bool)
    (params : List FnParam) (retType : Option String) (body : FnBody) :
    List IReactHookParam × String :=
  let parameters := params.map fun p =>
    ⟨(truthy p.name).getD "arg", p.type.getD "any"⟩
  let rt :=
    if isAsync then "Promise<any>"
    else
      match retType with
      | some t => t
      | none =>
        match body with
        | .block stmts =>
          (match stmts.getLast? with
           | some (.ret (some e)) => checker.typeAt e
           | _ => "void")
        | .exprB e => if isArrow then checker.typeAt e else "void"
  (parameters, rt)

def parseVariableDeclaration (checker : Checker) (node : VarDeclNode)
    (d : IDocInfo) : IDocInfo :=
  let name := node.name
  if strIsEmpty name then d
  else
    let comment := node.comment
    if strStartsWith name "use" then
      let fromInit :=
        match node.init with
        | some (.arrowFunction isAsync params retType body) =>
          hookFromFn checker true isAsync params retType body
        | some (.functionExpr isAsync params retType body) =>
          hookFromFn checker false isAsync params retType body
        | _ => ([], "void")
      let hookReturnType :=
        match node.declaredType with
        | some typeText =>
          (match callSigCapture typeText with
           | some cap => jsTrim cap
           | none => typeText)
        | none => fromInit.2
      let hookRec : IReactHook :=
        { name, type := hookReturnType, parameters := fromInit.1, comment }
      { d with hooks := setKey d.hooks name hookRec }
    else
      match node.init with
      | none => d
      | some init =>
        match analyzeComponentPattern checker init name comment d
            node.declaredType with
        | some componentInfo =>
          { d with components := setKey d.components name componentInfo }
        | none =>
          match init with
          | .arrowFunction _ params retType body =>
            varFunctionRegister checker node d name comment true params
              retType body
          | .functionExpr _ params retType body =>
            varFunctionRegister checker node d name comment false params
              retType body
          | _ => d
where
  varFunctionRegister (checker : Checker) (node : VarDeclNode) (d : IDocInfo)
      (name comment : String) (isArrow : Bool) (params : List FnParam)
      (retType : Option String) (body : FnBody) : IDocInfo :=
    let fnParams : List IFunctionParam := params.map fun p =>
      ⟨(truthy p.name).getD "arg", p.type.getD "any"⟩
    let returnType :=
      match node.declaredType with
      | some typeText =>
        if (mapLookup d.functions typeText).isSome ||
           (mapLookup d.typeAliases typeText).isSome then typeText
        else
          (match anchoredCallSigCapture typeText with
           | some cap => jsTrim cap
           | none =>
             match arrowCapture typeText with
             | some cap => jsTrim cap
             | none => typeText)
      | none =>
        match retType with
        | some t => t
        | none =>
          match body with
          | .block stmts =>
            (match stmts.getLast? with
             | some (.ret (some e)) => checker.typeAt e
             | _ => "void")
          | .exprB e => if isArrow then checker.typeAt e else "void"
    let funcRec : IFunctionSignature :=
      { parameters := fnParams, ret := returnType, comment, code := node.code }
    { d with functions := setKey d.functions name funcRec }

/-! ### `parseFunctionDeclaration` -/

structure FuncDeclNode where
  name : Option String
  comment : String
  params : List FnParam
  retType : Option String
  body : Option (List Stmt)
  code : String
  deriving Repr

def parseFunctionDeclaration (checker : Option Checker) (node : FuncDeclNode)
    (d : IDocInfo) : IDocInfo :=
  match truthy node.name with
  | none => d
  | some name =>
    let comment := node.comment
    if strStartsWith name "use" then
      let parameters : List IReactHookParam := node.params.map fun p =>
        ⟨p.name.getD "arg", p.type.getD "any"⟩
      let hookReturnType :=
        match node.retType with
        | some t => t
        | none =>
          match checker with
          | some ch =>
            (match node.body with
             | some stmts =>
               match stmts.getLast? with
               | some (.ret (some e)) => ch.typeAt e
               | _ => "void"
             | none => "void")
          | none => "void"
      let hookRec : IReactHook :=
        { name, type := hookReturnType, parameters, comment }
      { d with hooks := setKey d.hooks name hookRec }
    else
      let params : List IFunctionParam := node.params.map fun p =>
        ⟨p.name.getD "arg", p.type.getD "any"⟩
      let returnType :=
        match node.retType with
        | some t => t
        | none =>
          match checker with
          | some ch => (ch.sigReturn node.code).getD "void"
          | none => "void"
      let funcRec : IFunctionSignature :=
        { parameters := params, ret := returnType, comment, code := node.code }
      { d with functions := setKey d.functions name funcRec }

/-! ## Traversal and failure handling (`walkTree` and the per-file loop)

For the error-handling claim the per-node classification is abstracted:
a node label either classifies successfully (registering through
`register` — in the source every parse function performs its single map
assignment as its final action, so a classification that throws
registers nothing) or throws.  `walkTree` mirrors the control flow of
`src/core/analyzer.ts`: the kind dispatch runs outside any local
`try`/`catch`; the `try`/`catch` wraps only the `forEachChild`
recursion into the children.  A throwing classification therefore
propagates out of the failing node's own `walkTree` call (second
component `true`) and is caught at its parent, which abandons the
remaining children and returns normally. -/

inductive SyntaxTree (α : Type) where
  | node (label : α) (children : List (SyntaxTree α))

structure NodeClassifier (α : Type) where
  throws : α → Bool
  register : α → IDocInfo → IDocInfo

mutual
def walkTree {α : Type} (cl : NodeClassifier α) :
    SyntaxTree α → IDocInfo → IDocInfo × Bool
  | .node label children, d =>
    if cl.throws label then (d, true)
    else (walkChildren cl children (cl.register label d), false)

def walkChildren {α : Type} (cl : NodeClassifier α) :
    List (SyntaxTree α) → IDocInfo → IDocInfo
  | [], d => d
  | c :: rest, d =>
    match walkTree cl c d with
    | (d', true) => d'
    | (d', false) => walkChildren cl rest d'
end

/-- The per-file loop of `load`: each file's traversal is wrapped in a
`try`/`catch`, so analysis always continues with the next file, keeping
whatever state the failed traversal left behind. -/
def analyzeFiles {α : Type} (cl : NodeClassifier α) :
    List (SyntaxTree α) → IDocInfo → IDocInfo
  | [], d => d
  | f :: rest, d => analyzeFiles cl rest (walkTree cl f d).1

/-! ## General lemmas about the map model -/

theorem mapLookup_setKey_self {α : Type} (m : SMap α) (k : String) (v : α) :
    mapLookup (setKey m k v) k = some v := by
  induction m with
  | nil => simp [setKey, mapLookup]
  | cons p rest ih =>
    by_cases h : p.1 = k
    · simp [setKey, h, mapLookup]
    · simpa [setKey, h, mapLookup] using ih

theorem mapLookup_setKey_ne {α : Type} (m : SMap α) (k k' : String) (v : α)
    (h : k ≠ k') : mapLookup (setKey m k v) k' = mapLookup m k' := by
  induction m with
  | nil => simp [setKey, mapLookup, h]
  | cons p rest ih =>
    by_cases hp : p.1 = k
    · simp [setKey, hp, mapLookup, h]
    · simp [setKey, hp, mapLookup, ih]

/-- A name that starts with `use` is nonempty. -/
theorem strStartsWith_use_not_empty (s : String)
    (h : strStartsWith s "use" = true) : strIsEmpty s = false := by
  unfold strStartsWith at h
  unfold strIsEmpty
  cases hd : s.data with
  | nil => rw [hd] at h; exact absurd h (by decide)
  | cons c cs => simp

/-! ## Claim C6: `const C = memo(forwardRef((props: P, ref: R) => ...))` -/

/-- The classifier result on a memo-over-forwardRef wrapped arrow
initializer with two annotated parameters. -/
theorem analyzeComponentPattern_memo_forwardRef (checker : Checker)
    (d : IDocInfo) (name comment P R : String) (pn1 pn2 : Option String)
    (isAsync : Bool) (body : FnBody) :
    analyzeComponentPattern checker
      (.callE "memo" [.callE "forwardRef"
        [.arrowFunction isAsync [⟨pn1, some P⟩, ⟨pn2, some R⟩] none body]])
      name comment d none =
    some ⟨name, P, none, some R, comment, some .forwardRef,
      ["memo", "forwardRef"], none⟩ := rfl

/-- Claim C6: for a variable declaration of the shape
`const C = memo(forwardRef((props: P, ref: R) => ...))` (any
non-hook-prefixed name), the classifier registers a Component record
with kind `forwardRef`, `propType = "P"`, `refType = "R"`, and the
wrapper list `["memo", "forwardRef"]` in outer-to-inner order. -/
theorem claim_memo_forwardRef_component (checker : Checker) (d : IDocInfo)
    (name comment P R code : String) (pn1 pn2 : Option String)
    (isAsync : Bool) (body : FnBody)
    (huse : strStartsWith name "use" = false)
    (hname : strIsEmpty name = false) :
    mapLookup (parseVariableDeclaration checker
      ⟨name, comment, some (.callE "memo" [.callE "forwardRef"
        [.arrowFunction isAsync [⟨pn1, some P⟩, ⟨pn2, some R⟩] none body]]),
       none, code⟩ d).components name =
    some ⟨name, P, none, some R, comment, some .forwardRef,
      ["memo", "forwardRef"], none⟩ := by
  unfold parseVariableDeclaration
  simp only [hname, huse, Bool.false_eq_true, if_false,
    analyzeComponentPattern_memo_forwardRef]
  exact mapLookup_setKey_self ..

/-- Witness for C6 at a concrete declaration. -/
theorem claim_memo_forwardRef_component_witness :
    mapLookup (parseVariableDeclaration ⟨fun _ => "any", fun _ => none, fun _ => none⟩
      ⟨"C", "/** c */", some (.callE "memo" [.callE "forwardRef"
        [.arrowFunction false [⟨some "props", some "P"⟩, ⟨some "ref", some "R"⟩]
          none (.block [])]]),
       none, "const C = ..."⟩ {}).components "C" =
    some ⟨"C", "P", none, some "R", "/** c */", some .forwardRef,
      ["memo", "forwardRef"], none⟩ :=
  claim_memo_forwardRef_component ⟨fun _ => "any", fun _ => none, fun _ => none⟩
    {} "C" "/** c */" "P" "R" "const C = ..." (some "props") (some "ref")
    false (.block []) (by decide) (by decide)

/-! ## Claim C10: hook-prefixed variable names always take the hook path -/

/-- Claim C10: for every variable declaration whose name starts with
`use`, `parseVariableDeclaration` registers a Hook record under that
name and returns before any component or function analysis: the
components and functions maps are untouched, whatever the initializer
is, and the return type defaults to `void` when there is neither an
initializer to inspect nor a declared type annotation. -/
theorem claim_use_prefix_hooks_only (checker : Checker) (node : VarDeclNode)
    (d : IDocInfo) (huse : strStartsWith node.name "use" = true) :
    (parseVariableDeclaration checker node d).components = d.components ∧
    (parseVariableDeclaration checker node d).functions = d.functions ∧
    (∃ hookRec : IReactHook, hookRec.name = node.name ∧
      (parseVariableDeclaration checker node d).hooks =
        setKey d.hooks node.name hookRec) ∧
    (node.init = none → node.declaredType = none →
      (parseVariableDeclaration checker node d).hooks =
        setKey d.hooks node.name ⟨node.name, "void", [], node.comment⟩) := by
  have hname := strStartsWith_use_not_empty node.name huse
  unfold parseVariableDeclaration
  simp only [hname, huse, Bool.false_eq_true, if_false, if_true]
  refine ⟨trivial, trivial, ⟨_, rfl, rfl⟩, fun hinit hdecl => ?_⟩
  rw [hinit, hdecl]

/-- Witness for C10 at a concrete memo-wrapped hook-named declaration. -/
theorem claim_use_prefix_hooks_only_witness :
    (parseVariableDeclaration ⟨fun _ => "any", fun _ => none, fun _ => none⟩
      ⟨"useC", "", some (.callE "memo"
        [.arrowFunction false [⟨some "props", some "P"⟩] none (.block [])]),
       none, ""⟩ {}).components = ({} : IDocInfo).components ∧
    (∃ hookRec : IReactHook, hookRec.name = "useC" ∧
      (parseVariableDeclaration ⟨fun _ => "any", fun _ => none, fun _ => none⟩
        ⟨"useC", "", some (.callE "memo"
          [.arrowFunction false [⟨some "props", some "P"⟩] none (.block [])]),
         none, ""⟩ {}).hooks = setKey ({} : IDocInfo).hooks "useC" hookRec) := by
  have h := claim_use_prefix_hooks_only
    ⟨fun _ => "any", fun _ => none, fun _ => none⟩
    ⟨"useC", "", some (.callE "memo"
      [.arrowFunction false [⟨some "props", some "P"⟩] none (.block [])]),
     none, ""⟩ {} (by decide)
  exact ⟨h.1, h.2.2.1⟩

/-! ## Claim C4: hook return-type precedence in `parseVariableDeclaration` -/

/-- A concrete type-checking oracle instance used for witnesses and
counterexamples. -/
def sampleChecker : Checker := ⟨fun _ => "number", fun _ => none, fun _ => none⟩

/-- Claim C4, counterexample: in
`const useX: () => B = (): A => {...}` both a declared outer type
annotation (`() => B`) and an explicit return-type annotation on the
innermost function (`A`) are present.  The claim's precedence requires
the explicit function annotation `A` to win, but the registered Hook
carries `B`: the declared outer annotation overwrites it. -/
theorem claim_hook_return_type_counterexample :
    mapLookup (parseVariableDeclaration sampleChecker
      ⟨"useX", "", some (.arrowFunction false [] (some "A") (.block [])),
       some "() => B", ""⟩ {}).hooks "useX" =
      some ⟨"useX", "B", [], ""⟩ ∧ ("B" : String) ≠ "A" := by
  constructor
  · decide
  · decide

/-- Claim C4 (amended): the registered Hook's return-type text is
resolved with this precedence — a declared outer type annotation first
(matched against the call-signature text pattern, falling back to the
full annotation text), else, from the innermost function, `Promise<any>`
for an async function, else its explicit return-type annotation, else
the type-checking oracle applied to the final return statement's
expression. -/
theorem claim_hook_return_type_precedence (checker : Checker)
    (node : VarDeclNode) (d : IDocInfo)
    (huse : strStartsWith node.name "use" = true) :
    (∀ tt, node.declaredType = some tt →
      (mapLookup (parseVariableDeclaration checker node d).hooks
          node.name).map (fun h => h.type) =
        some (match callSigCapture tt with
              | some cap => jsTrim cap
              | none => tt)) ∧
    (∀ isAsync params rt body, node.declaredType = none →
      node.init = some (.arrowFunction isAsync params (some rt) body) →
      (mapLookup (parseVariableDeclaration checker node d).hooks
          node.name).map (fun h => h.type) =
        some (if isAsync then "Promise<any>" else rt)) ∧
    (∀ params stmts e, node.declaredType = none →
      node.init = some (.arrowFunction false params none (.block stmts)) →
      stmts.getLast? = some (.ret (some e)) →
      (mapLookup (parseVariableDeclaration checker node d).hooks
          node.name).map (fun h => h.type) =
        some (checker.typeAt e)) := by
  have hname := strStartsWith_use_not_empty node.name huse
  unfold parseVariableDeclaration
  simp only [hname, huse, Bool.false_eq_true, if_false, if_true]
  refine ⟨fun tt htt => ?_, fun isAsync params rt body hdecl hinit => ?_,
    fun params stmts e hdecl hinit hlast => ?_⟩
  · rw [htt, mapLookup_setKey_self]
    simp
  · rw [hdecl, hinit, mapLookup_setKey_self]
    simp [hookFromFn]
  · rw [hdecl, hinit, mapLookup_setKey_self]
    simp [hookFromFn, hlast]

/-- Witness for the amended C4 at a concrete declaration with only an
explicit innermost return annotation. -/
theorem claim_hook_return_type_precedence_witness :
    (mapLookup (parseVariableDeclaration sampleChecker
      ⟨"useY", "", some (.arrowFunction false [] (some "A") (.block [])),
       none, ""⟩ {}).hooks "useY").map (fun h => h.type) = some "A" := by
  have h := (claim_hook_return_type_precedence sampleChecker
    ⟨"useY", "", some (.arrowFunction false [] (some "A") (.block [])),
     none, ""⟩ {} (by decide)).2.1
  simpa using h false [] "A" (.block []) rfl rfl

/-! ## Claim C5: function declarations and the hook-name prefix -/

/-- Claim C5, counterexample: a function declaration named `useFoo`
registers no Function Signature at all — only a Hook — although the
claim requires every named function declaration to appear in the
functions map. -/
theorem claim_function_declaration_counterexample :
    mapLookup (parseFunctionDeclaration (some sampleChecker)
      ⟨some "useFoo", "", [], some "number", some [],
       "function useFoo(): number {}"⟩ {}).functions "useFoo" = none ∧
    (mapLookup (parseFunctionDeclaration (some sampleChecker)
      ⟨some "useFoo", "", [], some "number", some [],
       "function useFoo(): number {}"⟩ {}).hooks "useFoo").isSome = true := by
  constructor
  · decide
  · decide

/-- Claim C5 (amended): for every named function declaration, if the
name does not match the hook-name prefix a Function Signature record is
registered under it (and the hooks map is untouched); if it does, the
declaration is registered only as a Hook — the early return skips the
function-signature registration, so the functions map is untouched. -/
theorem claim_function_declaration_registration (checker : Option Checker)
    (node : FuncDeclNode) (d : IDocInfo) (name : String)
    (hname : truthy node.name = some name) :
    (strStartsWith name "use" = false →
      (∃ f : IFunctionSignature, f.code = node.code ∧
        (parseFunctionDeclaration checker node d).functions =
          setKey d.functions name f) ∧
      (parseFunctionDeclaration checker node d).hooks = d.hooks) ∧
    (strStartsWith name "use" = true →
      (parseFunctionDeclaration checker node d).functions = d.functions ∧
      (∃ h : IReactHook, h.name = name ∧
        (parseFunctionDeclaration checker node d).hooks =
          setKey d.hooks name h)) := by
  unfold parseFunctionDeclaration
  rw [hname]
  constructor
  · intro h
    simp only [h, Bool.false_eq_true, if_false]
    exact ⟨⟨_, rfl, rfl⟩, trivial⟩
  · intro h
    simp only [h, if_true]
    exact ⟨trivial, ⟨_, rfl, rfl⟩⟩

/-- Witness for the amended C5: a non-hook function declaration
registers a Function Signature, and a hook-named one registers a Hook. -/
theorem claim_function_declaration_registration_witness :
    ((∃ f : IFunctionSignature, f.code = "function foo() {}" ∧
        (parseFunctionDeclaration (some sampleChecker)
          ⟨some "foo", "", [], some "void", some [], "function foo() {}"⟩
          {}).functions = setKey ({} : IDocInfo).functions "foo" f) ∧
      (parseFunctionDeclaration (some sampleChecker)
        ⟨some "foo", "", [], some "void", some [], "function foo() {}"⟩
        {}).hooks = ({} : IDocInfo).hooks) ∧
    ((parseFunctionDeclaration (some sampleChecker)
        ⟨some "useBar", "", [], some "void", some [], "function useBar() {}"⟩
        {}).functions = ({} : IDocInfo).functions) := by
  constructor
  · exact (claim_function_declaration_registration (some sampleChecker)
      ⟨some "foo", "", [], some "void", some [], "function foo() {}"⟩
      {} "foo" (by decide)).1 (by decide)
  · exact ((claim_function_declaration_registration (some sampleChecker)
      ⟨some "useBar", "", [], some "void", some [], "function useBar() {}"⟩
      {} "useBar" (by decide)).2 (by decide)).1

/-! ## Claim C3: back-references and `generateComplexComponentType` -/

/-- The canonical target of the alias below: a plain functional
component. -/
def aliasTargetComp : IReactComponent :=
  { name := "C", propType := "P", comment := "", type := some .functional }

/-- The record the classifier produces for `const A = memo(C)`: a
back-reference to `C` with a `memo` wrapper of its own. -/
def aliasComp : IReactComponent :=
  { name := "A", propType := "any", comment := "", type := some .functional,
    wrappers := ["memo"], referencedComponent := some "C" }

def aliasDocInfo : IDocInfo :=
  { components := [("C", aliasTargetComp), ("A", aliasComp)] }

/-- Claim C3, counterexample: for the alias `A = memo(C)` the signature
rendered for `A` is memo-wrapped while the one rendered directly for its
canonical target `C` is not, so the two signature texts differ (and not
merely in the declared name, which does not occur in them). -/
theorem claim_backref_render_counterexample :
    generateComplexComponentType aliasComp aliasDocInfo false =
      "React.MemoExoticComponent<React.FunctionComponent<P>>" ∧
    generateComplexComponentType aliasTargetComp aliasDocInfo false =
      "React.FunctionComponent<P>" ∧
    generateComplexComponentType aliasComp aliasDocInfo false ≠
      generateComplexComponentType aliasTargetComp aliasDocInfo false := by
  refine ⟨by decide, by decide, by decide⟩

/-- Claim C3 (amended): when a Component record's back-reference names a
record present in the model, every prop/state/ref type lookup of
`generateComplexComponentType` uses the canonical record's fields — the
rendered signature is the canonical record's own-field base type, wrapped
in `React.MemoExoticComponent` according to the alias record's own
wrapper list.  Consequently the alias renders the same signature text as
its canonical target exactly when the target itself carries no resolvable
back-reference and the two records agree on the memo wrapper. -/
theorem claim_backref_canonical_fields (comp C : IReactComponent)
    (d : IDocInfo) (lt : Bool) (r : String)
    (h1 : truthy comp.referencedComponent = some r)
    (h2 : mapLookup d.components r = some C) :
    generateComplexComponentType comp d lt =
      (if comp.wrappers.any isMemoEnd then
        "React.MemoExoticComponent<" ++ componentBaseTypeOfFields d lt C ++ ">"
      else componentBaseTypeOfFields d lt C) ∧
    ((∀ r2, truthy C.referencedComponent = some r2 →
        mapLookup d.components r2 = none) →
      comp.wrappers.any isMemoEnd = C.wrappers.any isMemoEnd →
      generateComplexComponentType comp d lt =
        generateComplexComponentType C d lt) := by
  have h1' : generateComplexComponentType comp d lt =
      (if comp.wrappers.any isMemoEnd then
        "React.MemoExoticComponent<" ++ componentBaseTypeOfFields d lt C ++ ">"
      else componentBaseTypeOfFields d lt C) := by
    simp only [generateComplexComponentType, componentBaseTypeOfFields, h1, h2]
  refine ⟨h1', fun hC hMemo => ?_⟩
  have hbase : generateComplexComponentType C d lt =
      (if C.wrappers.any isMemoEnd then
        "React.MemoExoticComponent<" ++ componentBaseTypeOfFields d lt C ++ ">"
      else componentBaseTypeOfFields d lt C) := by
    cases htr : truthy C.referencedComponent with
    | none => simp only [generateComplexComponentType, componentBaseTypeOfFields, htr]
    | some r2 => simp only [generateComplexComponentType, componentBaseTypeOfFields,
        htr, hC r2 htr]
  rw [h1', hbase, hMemo]

/-- A back-reference to `C` without a memo wrapper of its own, for the
witness. -/
def plainAliasComp : IReactComponent :=
  { name := "A2", propType := "any", comment := "", type := some .functional,
    referencedComponent := some "C" }

/-- Witness for the amended C3: an alias that agrees with its canonical
target on the memo wrapper renders the identical signature text. -/
theorem claim_backref_canonical_fields_witness :
    generateComplexComponentType plainAliasComp aliasDocInfo false =
      generateComplexComponentType aliasTargetComp aliasDocInfo false := by
  have h := (claim_backref_canonical_fields plainAliasComp aliasTargetComp
    aliasDocInfo false "C" (by decide) (by decide)).2
  exact h (fun r2 hr2 => by simp [aliasTargetComp, truthy] at hr2) (by decide)

/-! ## Claim C9: the comment interpreter never raises -/

/-- Claim C9: over any oracle instance of the black-box comment parser,
`parseTSDocComment` is total — it returns a summary/examples/flags
triple for every input string, and returns the empty summary, an empty
example list and no flags (rather than raising) on every input that
fails to parse as a structured comment; consequently
`hasExportAnnotation` is a total boolean predicate that is false on such
inputs. -/
theorem claim_comment_interpreter_fail_silent (oracle : TSDocOracle)
    (comment : String) :
    (∃ s ex fl, parseTSDocComment oracle comment = (s, ex, fl)) ∧
    (oracle comment = .malformed →
      parseTSDocComment oracle comment = ("", [], ComponentFlags.none)) ∧
    (oracle comment = .malformed →
      hasExportAnnotation oracle comment = false) := by
  refine ⟨⟨_, _, _, rfl⟩, fun h => ?_, fun h => ?_⟩
  · simp [parseTSDocComment, h]
  · simp [ hasExportAnnotation, parseTSDocComment, h, ComponentFlags.none]

/-- Witness for C9 at a concrete failing input. -/
theorem claim_comment_interpreter_fail_silent_witness :
    parseTSDocComment (fun _ => .malformed) "not a doc comment" =
      ("", [], ComponentFlags.none) ∧
    hasExportAnnotation (fun _ => .malformed) "not a doc comment" = false :=
  ⟨(claim_comment_interpreter_fail_silent (fun _ => .malformed)
      "not a doc comment").2.1 rfl,
   (claim_comment_interpreter_fail_silent (fun _ => .malformed)
      "not a doc comment").2.2 rfl⟩

/-! ## Claim C8: error handling during tree traversal -/

/-- A classifier whose node `"A"` throws and whose node `"B"` registers
an interface. -/
def skipClassifier : NodeClassifier String :=
  { throws := fun l => l = "A",
    register := fun l d =>
      if l = "B" then
        { d with interfaces := setKey d.interfaces "B" ⟨"B", "", [], ""⟩ }
      else d }

/-- A file with two sibling declaration nodes, the first of which
throws during classification. -/
def skipTree : SyntaxTree String := .node "root" [.node "A" [], .node "B" []]

/-- Claim C8, counterexample: when classification of the first child
throws, its later sibling `"B"` is never visited — its record is absent
from the model, although the same traversal registers it when nothing
throws.  The error escapes the failing node (the kind dispatch runs
outside the `try`), is caught by the parent's `try`/`catch` around
`forEachChild`, and the remaining children are abandoned. -/
theorem claim_walkTree_sibling_counterexample :
    mapLookup (walkTree skipClassifier skipTree {}).1.interfaces "B" = none ∧
    mapLookup (walkTree { skipClassifier with throws := fun _ => false }
      skipTree {}).1.interfaces "B" = some ⟨"B", "", [], ""⟩ := by
  constructor
  · simp [walkTree, walkChildren, skipClassifier, skipTree, setKey, mapLookup]
  · simp [walkTree, walkChildren, skipClassifier, skipTree, setKey, mapLookup]

/-- Claim C8 (amended): an error thrown while classifying a node skips
that node's subtree and its later siblings, but is contained at the
nearest enclosing traversal: a node whose own classification does not
throw always returns normally (so nodes outside the abandoned remainder
are still visited), and the per-file wrapper always continues with the
next file whatever a file's traversal did. -/
theorem claim_walkTree_error_containment {α : Type} (cl : NodeClassifier α) :
    (∀ label children (d : IDocInfo), cl.throws label = false →
      (walkTree cl (.node label children) d).2 = false) ∧
    (∀ lbl cs pre post (d : IDocInfo), cl.throws lbl = true →
      walkChildren cl (pre ++ .node lbl cs :: post) d =
        walkChildren cl (pre ++ [.node lbl cs]) d) ∧
    (∀ f fs (d : IDocInfo), analyzeFiles cl (f :: fs) d =
      analyzeFiles cl fs (walkTree cl f d).1) := by
  refine ⟨fun label children d h => ?_, fun lbl cs pre post d h => ?_,
    fun f fs d => rfl⟩
  · simp [walkTree, h]
  · induction pre generalizing d with
    | nil => simp [walkChildren, walkTree, h]
    | cons p pre ih =>
      simp only [List.cons_append, walkChildren]
      cases hw : walkTree cl p d with
      | mk d' threw =>
        cases threw with
        | true => simp
        | false => simp [ih]

/-- Witness for the amended C8 at the concrete classifier and tree:
the root is non-throwing so traversal returns normally, the later
sibling of the throwing node is dropped, and the file loop proceeds. -/
theorem claim_walkTree_error_containment_witness :
    (walkTree skipClassifier skipTree {}).2 = false ∧
    walkChildren skipClassifier ([] ++ .node "A" [] :: [.node "B" []]) {} =
      walkChildren skipClassifier ([] ++ [.node "A" []]) {} ∧
    analyzeFiles skipClassifier (skipTree :: []) {} =
      analyzeFiles skipClassifier [] (walkTree skipClassifier skipTree {}).1 := by
  refine ⟨(claim_walkTree_error_containment skipClassifier).1 "root"
      [.node "A" [], .node "B" []] {} (by decide),
    (claim_walkTree_error_containment skipClassifier).2.1 "A" [] []
      [.node "B" []] {} (by decide),
    (claim_walkTree_error_containment skipClassifier).2.2 skipTree [] {}⟩

/-! ## Claim C7: "Related Types" sections -/

/-- A property preserved by each step of a fold is preserved by the
fold. -/
theorem foldl_preserve {σ α : Type} {f : σ → α → σ} {P : σ → Prop}
    (h : ∀ st t, P st → P (f st t)) :
    ∀ (l : List α) (st : σ), P st → P (l.foldl f st) := by
  intro l
  induction l with
  | nil => intro st hst; simpa using hst
  | cons t rest ih => intro st hst; simpa using ih (f st t) (h st t hst)

theorem mem_of_contains {x : String} {l : List String}
    (h : l.contains x = true) : x ∈ l := by
  simpa using h

/-- Every name `collectRelatedTypes` pushes is a member of the supplied
closure set (the guard checks `dependentTypes.has` before pushing). -/
theorem collectRelated_subset (d : IDocInfo) (dep : List String) :
    ∀ (fuel : Nat) (st : List String × List String) (n : String),
      (∀ x ∈ st.2, x ∈ dep) →
      ∀ x ∈ (collectRelated d dep fuel st n).2, x ∈ dep := by
  intro fuel
  induction fuel with
  | zero =>
    intro st n hst x hx
    obtain ⟨v, rel⟩ := st
    rw [collectRelated] at hx
    by_cases hc : (v.contains n || !dep.contains n) = true
    · rw [if_pos hc] at hx; exact hst x hx
    · rw [if_neg hc] at hx
      simp only [Bool.or_eq_true, Bool.not_eq_true'] at hc
      push_neg at hc
      rcases List.mem_append.mp hx with h1 | h1
      · exact hst x h1
      · rcases List.mem_singleton.mp h1 with rfl
        exact mem_of_contains (eq_true_of_ne_false hc.2)
  | succ f ih =>
    intro st n hst x hx
    obtain ⟨v, rel⟩ := st
    rw [collectRelated] at hx
    by_cases hc : (v.contains n || !dep.contains n) = true
    · rw [if_pos hc] at hx; exact hst x hx
    · rw [if_neg hc] at hx
      simp only [Bool.or_eq_true, Bool.not_eq_true'] at hc
      push_neg at hc
      have hbase : ∀ y ∈ (rel ++ [n]), y ∈ dep := by
        intro y hy
        rcases List.mem_append.mp hy with h1 | h1
        · exact hst y h1
        · rcases List.mem_singleton.mp h1 with rfl
          exact mem_of_contains (eq_true_of_ne_false hc.2)
      exact foldl_preserve (P := fun st => ∀ y ∈ st.2, y ∈ dep)
        (f := fun st t => collectRelated d dep f st t)
        (fun st t hp => ih st t hp) (candidates d n) (n :: v, rel ++ [n])
        hbase x hx

theorem jsSetDedupAux_subset : ∀ (l seen : List String) (x : String),
    x ∈ jsSetDedupAux l seen → x ∈ l := by
  intro l
  induction l with
  | nil => intro seen x hx; simp [jsSetDedupAux] at hx
  | cons a rest ih =>
    intro seen x hx
    rw [jsSetDedupAux] at hx
    by_cases h : seen.contains a = true
    · rw [if_pos h] at hx; exact List.mem_cons_of_mem a (ih _ x hx)
    · rw [if_neg h] at hx
      rcases List.mem_cons.mp hx with rfl | hx'
      · exact List.mem_cons_self ..
      · exact List.mem_cons_of_mem a (ih _ x hx')

theorem relOptStep_subset (d : IDocInfo) (dep : List String)
    (st : List String × List String) (o : Option String)
    (hst : ∀ x ∈ st.2, x ∈ dep) :
    ∀ x ∈ (relOptStep d dep st o).2, x ∈ dep := by
  unfold relOptStep
  cases truthy o with
  | none => exact hst
  | some s => exact collectRelated_subset d dep dep.length st s hst

theorem relParamsStep_subset (d : IDocInfo) (dep : List String)
    (st : List String × List String) (po : Option (List String))
    (hst : ∀ x ∈ st.2, x ∈ dep) :
    ∀ x ∈ (relParamsStep d dep st po).2, x ∈ dep := by
  unfold relParamsStep
  cases po with
  | none => exact hst
  | some ps =>
    exact foldl_preserve (P := fun st => ∀ y ∈ st.2, y ∈ dep)
      (fun st t hp => collectRelated_subset d dep dep.length st t hp) ps st hst

/-- Every name `getRelatedTypes` returns is a member of the supplied
closure set. -/
theorem getRelatedTypes_subset (item : RelatedItem) (dep : List String)
    (d : IDocInfo) : ∀ x ∈ getRelatedTypes item dep d, x ∈ dep := by
  intro x hx
  simp only [getRelatedTypes] at hx
  have h0 : ∀ y ∈ (([], []) : List String × List String).2, y ∈ dep := by
    intro y hy; exact absurd hy (List.not_mem_nil y)
  have h6 := relOptStep_subset d dep _ item.type
    (relOptStep_subset d dep _ item.ret
      (relParamsStep_subset d dep _ item.parameters
        (relOptStep_subset d dep _ item.stateType
          (relOptStep_subset d dep _ item.refType
            (relOptStep_subset d dep _ item.propType h0)))))
  exact h6 x (jsSetDedupAux_subset _ [] x hx)

/-- Claim C7 (amended): every name listed in a rendered "Related Types"
section is a member of the supplied closure set; on type documentation
pages it is additionally never the page's own subject name (the type
renderer filters the subject out), but component pages apply no such
filter and may list the component's own name. -/
theorem claim_related_types_membership (d : IDocInfo) (dep : List String) :
    (∀ comp : IReactComponent,
      ∀ x ∈ componentDocRelatedTypes comp d dep, x ∈ dep) ∧
    (∀ (typeInfo : TypeDocInput) (typeKind : TypeDocKind),
      ∀ x ∈ typeDocRelatedTypes typeInfo typeKind d dep,
        x ∈ dep ∧ x ≠ typeInfo.name) := by
  constructor
  · intro comp x hx
    exact getRelatedTypes_subset (componentRelatedItem comp) dep d x hx
  · intro typeInfo typeKind x hx
    unfold typeDocRelatedTypes at hx
    have hmem := List.mem_filter.mp hx
    exact ⟨getRelatedTypes_subset _ dep d x hmem.1,
      of_decide_eq_true hmem.2⟩

/-- A component whose prop type text is its own name, which also
resolves as a function signature. -/
def selfComp : IReactComponent :=
  { name := "Foo", propType := "Foo", comment := "/** @export */",
    type := some .functional }

def selfFunc : IFunctionSignature :=
  { parameters := [], ret := "void", comment := "", code := "" }

def selfDocInfo : IDocInfo :=
  { components := [("Foo", selfComp)], functions := [("Foo", selfFunc)] }

/-- An oracle instance on which every comment carries the export flag. -/
def exportOracle : TSDocOracle := fun _ => .ok "" [] true false

/-- Claim C7, counterexample: the name `Foo` is exported as a component
and also present in the functions map; the computed closure is
`["Foo"]`, and the "Related Types" section of `Foo`'s own component
page lists `Foo` — equal to the name of the declaration the page
documents, which the claim forbids. -/
theorem claim_related_types_counterexample :
    collectAllDependentTypes exportOracle selfDocInfo = ["Foo"] ∧
    componentDocRelatedTypes selfComp selfDocInfo
      (collectAllDependentTypes exportOracle selfDocInfo) = ["Foo"] ∧
    selfComp.name = "Foo" := by
  refine ⟨by decide, by decide, rfl⟩

/-- Witness for the amended C7: membership of a listed name in the
supplied closure set, at a concrete page. -/
theorem claim_related_types_membership_witness :
    "Foo" ∈ (["Foo"] : List String) :=
  (claim_related_types_membership selfDocInfo ["Foo"]).1 selfComp "Foo"
    (by decide)

/-! ## Claim C1: the declaration-module surface -/

theorem contains_iff_mem {x : String} {l : List String} :
    l.contains x = true ↔ x ∈ l := by simp

theorem mapLookup_mem {α : Type} (m : SMap α) (k : String) (v : α)
    (h : mapLookup m k = some v) : (k, v) ∈ m := by
  induction m with
  | nil => simp [mapLookup] at h
  | cons p rest ih =>
    obtain ⟨k', w⟩ := p
    rw [mapLookup] at h
    by_cases hk : k' = k
    · rw [if_pos hk] at h
      obtain rfl := Option.some.inj h
      exact hk ▸ List.mem_cons_self ..
    · rw [if_neg hk] at h
      exact List.mem_cons_of_mem _ (ih h)

/-- The single leading `export` keyword survives appending the final
newline: `a ++ "\n"` starts with `export` only if `a` does. -/
theorem strStartsWith_append_newline (a : String)
    (h : strStartsWith a "export" = false) :
    strStartsWith (a ++ "\n") "export" = false := by
  unfold strStartsWith at h ⊢
  rw [String.data_append]
  by_contra hc
  rw [Bool.not_eq_false] at hc
  have hp : "export".data <+: a.data ++ ['\n'] := by
    simpa using List.isPrefixOf_iff_prefix.mp hc
  rcases List.prefix_concat_iff.mp hp with he | he
  · have hmem : '\n' ∈ "export".data := by
      rw [he]; exact List.mem_append_right _ (by simp)
    exact absurd hmem (by decide)
  · rw [← List.isPrefixOf_iff_prefix] at he
    rw [h] at he
    exact Bool.false_ne_true he

theorem not_export_prefix_type (s : String) :
    strStartsWith ("type " ++ s) "export" = false := rfl

theorem not_export_prefix_const (s : String) :
    strStartsWith ("const " ++ s) "export" = false := rfl

theorem not_export_prefix_function (s : String) :
    strStartsWith ("function " ++ s) "export" = false := rfl

theorem export_type_split (X : String) :
    "export type " ++ X = "export " ++ ("type " ++ X) := by
  have h : ("export type " : String) = "export " ++ "type " := rfl
  rw [h, String.append_assoc]

theorem export_const_split (X : String) :
    "export const " ++ X = "export " ++ ("const " ++ X) := by
  have h : ("export const " : String) = "export " ++ "const " := rfl
  rw [h, String.append_assoc]

theorem export_function_split (X : String) :
    "export function " ++ X = "export " ++ ("function " ++ X) := by
  have h : ("export function " : String) = "export " ++ "function " := rfl
  rw [h, String.append_assoc]

/-- The invariant of the emission loops: entry names are pairwise
distinct and the `emitted` set holds exactly the emitted names. -/
def EmittedInv (st : List String × List ModuleEntry) : Prop :=
  (st.2.map ModuleEntry.name).Nodup ∧
  ∀ n, n ∈ st.1 ↔ n ∈ st.2.map ModuleEntry.name

theorem emittedInv_extend (st : List String × List ModuleEntry)
    (name : String) (e : ModuleEntry) (hn : e.name = name)
    (hnc : st.1.contains name = false) (hinv : EmittedInv st) :
    EmittedInv (name :: st.1, st.2 ++ [e]) := by
  obtain ⟨hnd, hiff⟩ := hinv
  have hnotmem : name ∉ st.2.map ModuleEntry.name := by
    intro hmem
    have := contains_iff_mem.mpr ((hiff name).mpr hmem)
    rw [hnc] at this
    exact Bool.false_ne_true this
  constructor
  · simp only [List.map_append, hn, List.Nodup, List.pairwise_append]
    refine ⟨hnd, by simp, fun a ha b hb => ?_⟩
    simp only [List.map_cons, List.map_nil, List.mem_cons, List.not_mem_nil,
      or_false] at hb
    subst hb
    intro heq
    exact hnotmem ((heq.trans hn) ▸ ha)
  · intro n
    simp only [List.map_append, List.map_cons, List.map_nil, hn,
      List.mem_append, List.mem_cons, List.mem_singleton, List.not_mem_nil,
      or_false]
    constructor
    · rintro (rfl | hin)
      · exact Or.inr rfl
      · exact Or.inl ((hiff n).mp hin)
    · rintro (hin | rfl)
      · exact Or.inr ((hiff n).mpr hin)
      · exact Or.inl rfl

/-- Every emission step either leaves the state unchanged or appends a
single entry whose name was not yet emitted. -/
theorem closureEntryStep_shape (d : IDocInfo)
    (st : List String × List ModuleEntry) (t : String) :
    closureEntryStep d st t = st ∨
    ∃ e : ModuleEntry, st.1.contains e.name = false ∧
      closureEntryStep d st t = (e.name :: st.1, st.2 ++ [e]) := by
  obtain ⟨em, en⟩ := st
  unfold closureEntryStep
  dsimp only
  by_cases hc : em.contains t = true
  · rw [if_pos hc]; exact Or.inl rfl
  · rw [if_neg hc]
    rw [Bool.not_eq_true] at hc
    cases mapLookup d.interfaces t with
    | some i =>
      exact Or.inr ⟨⟨t, "\n" ++ i.comment ++ "\n",
        "export " ++ stripLeadingExport i.code ++ "\n"⟩, hc, rfl⟩
    | none =>
      cases mapLookup d.unions t with
      | some u =>
        exact Or.inr ⟨⟨t, "\n" ++ u.comment ++ "\n",
          "export " ++ stripLeadingExport u.code ++ "\n"⟩, hc, rfl⟩
      | none =>
        cases mapLookup d.enums t with
        | some eo =>
          exact Or.inr ⟨⟨t, "\n" ++ eo.comment ++ "\n",
            "export " ++ stripLeadingDeclareOrExport eo.code ++ "\n"⟩, hc, rfl⟩
        | none =>
          cases mapLookup d.typeAliases t with
          | some a =>
            exact Or.inr ⟨⟨t, "\n" ++ a.comment ++ "\n",
              "export " ++ stripLeadingExport a.code ++ "\n"⟩, hc, rfl⟩
          | none =>
            cases mapLookup d.functions t with
            | some f =>
              exact Or.inr ⟨⟨t,
                (if f.comment ≠ "" then "\n" ++ f.comment ++ "\n" else "\n"),
                "export type " ++ t ++ " = (" ++ paramsText f.parameters ++
                  ") => " ++ f.ret ++ ";\n"⟩, hc, rfl⟩
            | none => exact Or.inl rfl

theorem componentEntryStep_shape (oracle : TSDocOracle) (d : IDocInfo)
    (st : List String × List ModuleEntry) (comp : IReactComponent) :
    componentEntryStep oracle d st comp = st ∨
    ∃ e : ModuleEntry, st.1.contains e.name = false ∧
      componentEntryStep oracle d st comp = (e.name :: st.1, st.2 ++ [e]) := by
  obtain ⟨em, en⟩ := st
  unfold componentEntryStep
  dsimp only
  by_cases hc : em.contains comp.name = true
  · rw [if_pos hc]; exact Or.inl rfl
  · rw [if_neg hc]
    rw [Bool.not_eq_true] at hc
    by_cases he : hasExportAnnotation oracle comp.comment = true
    · rw [if_pos he]
      exact Or.inr ⟨⟨comp.name,
        (if comp.comment ≠ "" then "\n" ++ comp.comment ++ "\n" else "\n"),
        "export const " ++ comp.name ++ ": " ++
          generateComplexComponentType comp d false ++ ";\n"⟩, hc, rfl⟩
    · rw [if_neg he]; exact Or.inl rfl

theorem functionEntryStep_shape (oracle : TSDocOracle)
    (st : List String × List ModuleEntry) (p : String × IFunctionSignature) :
    functionEntryStep oracle st p = st ∨
    ∃ e : ModuleEntry, st.1.contains e.name = false ∧
      functionEntryStep oracle st p = (e.name :: st.1, st.2 ++ [e]) := by
  obtain ⟨em, en⟩ := st
  unfold functionEntryStep
  dsimp only
  by_cases hc : em.contains p.1 = true
  · rw [if_pos hc]; exact Or.inl rfl
  · rw [if_neg hc]
    rw [Bool.not_eq_true] at hc
    by_cases he : hasExportAnnotation oracle p.2.comment = true
    · rw [if_pos he]
      exact Or.inr ⟨⟨p.1,
        (if p.2.comment ≠ "" then "\n" ++ p.2.comment ++ "\n" else "\n"),
        "export function " ++ p.1 ++ "(" ++ paramsText p.2.parameters ++
          "): " ++ p.2.ret ++ ";\n"⟩, hc, rfl⟩
    · rw [if_neg he]; exact Or.inl rfl

theorem hookEntryStep_shape (oracle : TSDocOracle)
    (st : List String × List ModuleEntry) (hook : IReactHook) :
    hookEntryStep oracle st hook = st ∨
    ∃ e : ModuleEntry, st.1.contains e.name = false ∧
      hookEntryStep oracle st hook = (e.name :: st.1, st.2 ++ [e]) := by
  obtain ⟨em, en⟩ := st
  unfold hookEntryStep
  dsimp only
  by_cases hc : em.contains hook.name = true
  · rw [if_pos hc]; exact Or.inl rfl
  · rw [if_neg hc]
    rw [Bool.not_eq_true] at hc
    by_cases he : hasExportAnnotation oracle hook.comment = true
    · rw [if_pos he]
      exact Or.inr ⟨⟨hook.name,
        (if hook.comment ≠ "" then "\n" ++ hook.comment ++ "\n" else "\n"),
        "export function " ++ hook.name ++ "(" ++
          hookParamsText hook.parameters ++ "): " ++ hook.type ++ ";\n"⟩,
        hc, rfl⟩
    · rw [if_neg he]; exact Or.inl rfl

theorem emittedInv_of_shape {st st' : List String × List ModuleEntry}
    (hsh : st' = st ∨ ∃ e : ModuleEntry, st.1.contains e.name = false ∧
      st' = (e.name :: st.1, st.2 ++ [e]))
    (h : EmittedInv st) : EmittedInv st' := by
  rcases hsh with rfl | ⟨e, hc, rfl⟩
  · exact h
  · exact emittedInv_extend st e.name e rfl hc h

theorem emitted_mono_of_shape {st st' : List String × List ModuleEntry}
    (hsh : st' = st ∨ ∃ e : ModuleEntry, st.1.contains e.name = false ∧
      st' = (e.name :: st.1, st.2 ++ [e])) {x : String}
    (h : x ∈ st.1) : x ∈ st'.1 := by
  rcases hsh with rfl | ⟨e, hc, rfl⟩
  · exact h
  · exact List.mem_cons_of_mem _ h

theorem foldl_hit {σ α : Type} {f : σ → α → σ} (P : σ → Prop)
    (hpres : ∀ st t, P st → P (f st t)) (l : List α) (t0 : α)
    (ht0 : t0 ∈ l) (hhit : ∀ st, P (f st t0)) :
    ∀ st, P (l.foldl f st) := by
  induction l with
  | nil => exact absurd ht0 (List.not_mem_nil t0)
  | cons t rest ih =>
    intro st
    rcases List.mem_cons.mp ht0 with rfl | hmem
    · exact foldl_preserve hpres rest (f st t0) (hhit st)
    · exact ih hmem (f st t)

theorem componentEntryStep_hits (oracle : TSDocOracle) (d : IDocInfo)
    (st : List String × List ModuleEntry) (comp : IReactComponent)
    (he : hasExportAnnotation oracle comp.comment = true) :
    comp.name ∈ (componentEntryStep oracle d st comp).1 := by
  obtain ⟨em, en⟩ := st
  unfold componentEntryStep
  dsimp only
  by_cases hc : em.contains comp.name = true
  · rw [if_pos hc]; exact mem_of_contains hc
  · rw [if_neg hc, if_pos he]; exact List.mem_cons_self ..

theorem functionEntryStep_hits (oracle : TSDocOracle)
    (st : List String × List ModuleEntry) (p : String × IFunctionSignature)
    (he : hasExportAnnotation oracle p.2.comment = true) :
    p.1 ∈ (functionEntryStep oracle st p).1 := by
  obtain ⟨em, en⟩ := st
  unfold functionEntryStep
  dsimp only
  by_cases hc : em.contains p.1 = true
  · rw [if_pos hc]; exact mem_of_contains hc
  · rw [if_neg hc, if_pos he]; exact List.mem_cons_self ..

theorem hookEntryStep_hits (oracle : TSDocOracle)
    (st : List String × List ModuleEntry) (hook : IReactHook)
    (he : hasExportAnnotation oracle hook.comment = true) :
    hook.name ∈ (hookEntryStep oracle st hook).1 := by
  obtain ⟨em, en⟩ := st
  unfold hookEntryStep
  dsimp only
  by_cases hc : em.contains hook.name = true
  · rw [if_pos hc]; exact mem_of_contains hc
  · rw [if_neg hc, if_pos he]; exact List.mem_cons_self ..

/-- Well-formed record codes: the code fields, after the strip the
module generator applies, do not begin with a further `export` keyword
(true of any code captured from parseable TypeScript source, which
admits at most one `export` modifier). -/
def CleanCodes (d : IDocInfo) : Prop :=
  (∀ p ∈ d.interfaces,
    strStartsWith (stripLeadingExport p.2.code) "export" = false) ∧
  (∀ p ∈ d.unions,
    strStartsWith (stripLeadingExport p.2.code) "export" = false) ∧
  (∀ p ∈ d.enums,
    strStartsWith (stripLeadingDeclareOrExport p.2.code) "export" = false) ∧
  (∀ p ∈ d.typeAliases,
    strStartsWith (stripLeadingExport p.2.code) "export" = false)

/-- An entry's declaration text carries exactly one leading
public-visibility keyword. -/
def entryWellFormed (e : ModuleEntry) : Prop :=
  ∃ rest, e.declPart = "export " ++ rest ∧
    strStartsWith rest "export" = false

theorem closureEntryStep_wf (d : IDocInfo)
    (st : List String × List ModuleEntry) (t : String) (hcc : CleanCodes d)
    (hwf : ∀ e ∈ st.2, entryWellFormed e) :
    ∀ e ∈ (closureEntryStep d st t).2, entryWellFormed e := by
  obtain ⟨em, en⟩ := st
  have hnew : ∀ (e : ModuleEntry), entryWellFormed e →
      ∀ x ∈ en ++ [e], entryWellFormed x := by
    intro e hee x hx
    rcases List.mem_append.mp hx with h1 | h1
    · exact hwf x h1
    · rcases List.mem_singleton.mp h1 with rfl
      exact hee
  unfold closureEntryStep
  dsimp only
  by_cases hc : em.contains t = true
  · rw [if_pos hc]; exact hwf
  · rw [if_neg hc]
    cases hi : mapLookup d.interfaces t with
    | some i =>
      exact hnew _ ⟨stripLeadingExport i.code ++ "\n",
        by simp [String.append_assoc],
        strStartsWith_append_newline _ (hcc.1 _ (mapLookup_mem _ _ _ hi))⟩
    | none =>
      cases hu : mapLookup d.unions t with
      | some u =>
        exact hnew _ ⟨stripLeadingExport u.code ++ "\n",
          by simp [String.append_assoc],
          strStartsWith_append_newline _ (hcc.2.1 _ (mapLookup_mem _ _ _ hu))⟩
      | none =>
        cases heo : mapLookup d.enums t with
        | some eo =>
          exact hnew _ ⟨stripLeadingDeclareOrExport eo.code ++ "\n",
            by simp [String.append_assoc],
            strStartsWith_append_newline _
              (hcc.2.2.1 _ (mapLookup_mem _ _ _ heo))⟩
        | none =>
          cases ha : mapLookup d.typeAliases t with
          | some a =>
            exact hnew _ ⟨stripLeadingExport a.code ++ "\n",
              by simp [String.append_assoc],
              strStartsWith_append_newline _
                (hcc.2.2.2 _ (mapLookup_mem _ _ _ ha))⟩
          | none =>
            cases hf : mapLookup d.functions t with
            | some f =>
              refine hnew _ ⟨"type " ++ (t ++ (" = (" ++
                (paramsText f.parameters ++ (") => " ++ (f.ret ++ ";\n"))))),
                ?_, not_export_prefix_type _⟩
              simp only [String.append_assoc]
              rw [export_type_split]
            | none => exact hwf

theorem componentEntryStep_wf (oracle : TSDocOracle) (d : IDocInfo)
    (st : List String × List ModuleEntry) (comp : IReactComponent)
    (hwf : ∀ e ∈ st.2, entryWellFormed e) :
    ∀ e ∈ (componentEntryStep oracle d st comp).2, entryWellFormed e := by
  obtain ⟨em, en⟩ := st
  unfold componentEntryStep
  dsimp only
  by_cases hc : em.contains comp.name = true
  · rw [if_pos hc]; exact hwf
  · rw [if_neg hc]
    by_cases he : hasExportAnnotation oracle comp.comment = true
    · rw [if_pos he]
      intro e hx
      rcases List.mem_append.mp hx with h1 | h1
      · exact hwf e h1
      · rcases List.mem_singleton.mp h1 with rfl
        refine ⟨"const " ++ (comp.name ++ (": " ++
          (generateComplexComponentType comp d false ++ ";\n"))), ?_,
          not_export_prefix_const _⟩
        simp only [String.append_assoc]
        rw [export_const_split]
    · rw [if_neg he]; exact hwf

theorem functionEntryStep_wf (oracle : TSDocOracle)
    (st : List String × List ModuleEntry) (p : String × IFunctionSignature)
    (hwf : ∀ e ∈ st.2, entryWellFormed e) :
    ∀ e ∈ (functionEntryStep oracle st p).2, entryWellFormed e := by
  obtain ⟨em, en⟩ := st
  unfold functionEntryStep
  dsimp only
  by_cases hc : em.contains p.1 = true
  · rw [if_pos hc]; exact hwf
  · rw [if_neg hc]
    by_cases he : hasExportAnnotation oracle p.2.comment = true
    · rw [if_pos he]
      intro e hx
      rcases List.mem_append.mp hx with h1 | h1
      · exact hwf e h1
      · rcases List.mem_singleton.mp h1 with rfl
        refine ⟨"function " ++ (p.1 ++ ("(" ++ (paramsText p.2.parameters ++
          ("): " ++ (p.2.ret ++ ";\n"))))), ?_, not_export_prefix_function _⟩
        simp only [String.append_assoc]
        rw [export_function_split]
    · rw [if_neg he]; exact hwf

theorem hookEntryStep_wf (oracle : TSDocOracle)
    (st : List String × List ModuleEntry) (hook : IReactHook)
    (hwf : ∀ e ∈ st.2, entryWellFormed e) :
    ∀ e ∈ (hookEntryStep oracle st hook).2, entryWellFormed e := by
  obtain ⟨em, en⟩ := st
  unfold hookEntryStep
  dsimp only
  by_cases hc : em.contains hook.name = true
  · rw [if_pos hc]; exact hwf
  · rw [if_neg hc]
    by_cases he : hasExportAnnotation oracle hook.comment = true
    · rw [if_pos he]
      intro e hx
      rcases List.mem_append.mp hx with h1 | h1
      · exact hwf e h1
      · rcases List.mem_singleton.mp h1 with rfl
        refine ⟨"function " ++ (hook.name ++ ("(" ++
          (hookParamsText hook.parameters ++ ("): " ++
          (hook.type ++ ";\n"))))), ?_, not_export_prefix_function _⟩
        simp only [String.append_assoc]
        rw [export_function_split]
    · rw [if_neg he]; exact hwf

theorem moduleState_inv (oracle : TSDocOracle) (d : IDocInfo) :
    EmittedInv (moduleState oracle d) := by
  unfold moduleState
  refine foldl_preserve
    (fun st p h => emittedInv_of_shape (hookEntryStep_shape oracle st p.2) h)
    _ _ (foldl_preserve
      (fun st p h => emittedInv_of_shape (functionEntryStep_shape oracle st p) h)
      _ _ (foldl_preserve
        (fun st p h =>
          emittedInv_of_shape (componentEntryStep_shape oracle d st p.2) h)
        _ _ (foldl_preserve
          (fun st t h => emittedInv_of_shape (closureEntryStep_shape d st t) h)
          _ _ ?_)))
  exact ⟨List.nodup_nil, by simp⟩

theorem moduleState_wf (oracle : TSDocOracle) (d : IDocInfo)
    (hcc : CleanCodes d) :
    ∀ e ∈ (moduleState oracle d).2, entryWellFormed e := by
  unfold moduleState
  refine foldl_preserve
    (fun st p h => hookEntryStep_wf oracle st p.2 h)
    _ _ (foldl_preserve
      (fun st p h => functionEntryStep_wf oracle st p h)
      _ _ (foldl_preserve
        (fun st p h => componentEntryStep_wf oracle d st p.2 h)
        _ _ (foldl_preserve
          (fun st t h => closureEntryStep_wf d st t hcc h)
          _ _ ?_)))
  intro e he
  exact absurd he (List.not_mem_nil e)

theorem moduleState_component_emitted (oracle : TSDocOracle) (d : IDocInfo)
    (p : String × IReactComponent) (hp : p ∈ d.components)
    (he : hasExportAnnotation oracle p.2.comment = true) :
    p.2.name ∈ (moduleState oracle d).1 := by
  unfold moduleState
  refine foldl_preserve (P := fun st => p.2.name ∈ st.1)
    (fun st (q : String × IReactHook) h =>
      emitted_mono_of_shape (hookEntryStep_shape oracle st q.2) h)
    _ _ (foldl_preserve (P := fun st => p.2.name ∈ st.1)
      (fun st (q : String × IFunctionSignature) h =>
        emitted_mono_of_shape (functionEntryStep_shape oracle st q) h)
      _ _ ?_)
  exact foldl_hit (fun st => p.2.name ∈ st.1)
    (fun st q h =>
      emitted_mono_of_shape (componentEntryStep_shape oracle d st q.2) h)
    _ p hp (fun st => componentEntryStep_hits oracle d st p.2 he) _

theorem moduleState_function_emitted (oracle : TSDocOracle) (d : IDocInfo)
    (p : String × IFunctionSignature) (hp : p ∈ d.functions)
    (he : hasExportAnnotation oracle p.2.comment = true) :
    p.1 ∈ (moduleState oracle d).1 := by
  unfold moduleState
  refine foldl_preserve (P := fun st => p.1 ∈ st.1)
    (fun st (q : String × IReactHook) h =>
      emitted_mono_of_shape (hookEntryStep_shape oracle st q.2) h)
    _ _ ?_
  exact foldl_hit (fun st => p.1 ∈ st.1)
    (fun st q h =>
      emitted_mono_of_shape (functionEntryStep_shape oracle st q) h)
    _ p hp (fun st => functionEntryStep_hits oracle st p he) _

theorem moduleState_hook_emitted (oracle : TSDocOracle) (d : IDocInfo)
    (p : String × IReactHook) (hp : p ∈ d.hooks)
    (he : hasExportAnnotation oracle p.2.comment = true) :
    p.2.name ∈ (moduleState oracle d).1 := by
  unfold moduleState
  exact foldl_hit (fun st => p.2.name ∈ st.1)
    (fun st q h => emitted_mono_of_shape (hookEntryStep_shape oracle st q.2) h)
    _ p hp (fun st => hookEntryStep_hits oracle st p.2 he) _

/-- An interface record flagged for export but referenced by no exported
declaration. -/
def strayInterface : IInterfaceDeclaration :=
  { name := "I", comment := "/** @export */", members := [],
    code := "interface I {}" }

def strayDocInfo : IDocInfo := { interfaces := [("I", strayInterface)] }

/-- Claim C1, counterexample: an interface record whose comment carries
the export-eligibility flag, but which no exported component, function
or hook references, yields no declaration entry at all — the
declaration-module text is just the empty ambient wrapper, not "exactly
one declaration entry for that record's name". -/
theorem claim_export_module_counterexample :
    hasExportAnnotation exportOracle strayInterface.comment = true ∧
    moduleEntries exportOracle strayDocInfo = [] ∧
    generateExportModule exportOracle strayDocInfo (some "m") =
      "declare module \"m\" \x7b\n\n\x7d\n" := by
  refine ⟨by decide, by decide, by decide⟩

/-- Claim C1 (amended): the emitted entries of `generateExportModule`
carry pairwise-distinct names; every export-flagged Component, Function
Signature and Hook record contributes an entry under its name (so the
module text contains exactly one declaration entry for it); and — for
record codes that do not begin with a duplicated `export` keyword after
the generator's strip — every entry's declaration text carries exactly
one leading public-visibility keyword.  (Export-flagged type records
that no exported declaration references are not emitted at all.) -/
theorem claim_export_module_surface (oracle : TSDocOracle) (d : IDocInfo) :
    ((moduleEntries oracle d).map ModuleEntry.name).Nodup ∧
    (∀ p ∈ d.components, hasExportAnnotation oracle p.2.comment = true →
      p.2.name ∈ (moduleEntries oracle d).map ModuleEntry.name) ∧
    (∀ p ∈ d.functions, hasExportAnnotation oracle p.2.comment = true →
      p.1 ∈ (moduleEntries oracle d).map ModuleEntry.name) ∧
    (∀ p ∈ d.hooks, hasExportAnnotation oracle p.2.comment = true →
      p.2.name ∈ (moduleEntries oracle d).map ModuleEntry.name) ∧
    (CleanCodes d → ∀ e ∈ moduleEntries oracle d, entryWellFormed e) := by
  obtain ⟨hnd, hiff⟩ := moduleState_inv oracle d
  exact ⟨hnd,
    fun p hp he => (hiff _).mp (moduleState_component_emitted oracle d p hp he),
    fun p hp he => (hiff _).mp (moduleState_function_emitted oracle d p hp he),
    fun p hp he => (hiff _).mp (moduleState_hook_emitted oracle d p hp he),
    fun hcc => moduleState_wf oracle d hcc⟩

def witnessHook : IReactHook :=
  { name := "useT", type := "void", parameters := [],
    comment := "/** @export */" }

def witnessDocInfo : IDocInfo := { hooks := [("useT", witnessHook)] }

/-- Witness for the amended C1 at a concrete exported hook. -/
theorem claim_export_module_surface_witness :
    ("useT", witnessHook).2.name ∈
      (moduleEntries exportOracle witnessDocInfo).map ModuleEntry.name :=
  (claim_export_module_surface exportOracle witnessDocInfo).2.2.2.1
    ("useT", witnessHook) (by decide) (by decide)

end ReactTsdoc
namespace ReactTsdoc

/-! ## Claim C2: lemmas about the dependency closure -/

theorem foldl_preserve_mem {σ α : Type} {f : σ → α → σ} {P : σ → Prop}
    {Q : α → Prop} (h : ∀ st t, Q t → P st → P (f st t)) :
    ∀ (l : List α), (∀ t ∈ l, Q t) → ∀ st, P st → P (l.foldl f st) := by
  intro l
  induction l with
  | nil => intro _ st hst; simpa using hst
  | cons t rest ih =>
    intro hq st hst
    exact ih (fun t' ht' => hq t' (List.mem_cons_of_mem t ht'))
      (f st t) (h st t (hq t (List.mem_cons_self ..)) hst)

theorem foldl_suffix {α : Type}
    {f : (List String × List String) → α → List String × List String}
    (h : ∀ st t, st.1 <:+ (f st t).1) :
    ∀ (l : List α) st, st.1 <:+ (l.foldl f st).1 := by
  intro l
  induction l with
  | nil => intro st; simp
  | cons t rest ih => intro st; exact (h st t).trans (ih (f st t))

theorem not_mem_of_not_contains {v : List String} {n : String}
    (hc : ¬ v.contains n = true) : n ∉ v :=
  fun hm => hc (contains_iff_mem.mpr hm)

/-- The visited list only grows (by prepending). -/
theorem collectDeps_visited_suffix (d : IDocInfo) :
    ∀ (fuel : Nat) (st : List String × List String) (n : String),
      st.1 <:+ (collectDeps d fuel st n).1 := by
  intro fuel
  induction fuel with
  | zero =>
    intro st n
    obtain ⟨v, c⟩ := st
    rw [collectDeps]
    by_cases hc : v.contains n = true
    · rw [if_pos hc]
    · rw [if_neg hc]
      exact List.suffix_cons n v
  | succ f ih =>
    intro st n
    obtain ⟨v, c⟩ := st
    rw [collectDeps]
    by_cases hc : v.contains n = true
    · rw [if_pos hc]
    · rw [if_neg hc]
      exact (List.suffix_cons n v).trans
        (foldl_suffix (fun st t => ih st t) (candidates d n)
          (n :: v, if resolves d n = true then c ++ [n] else c))

/-- The argument name is visited after the call. -/
theorem collectDeps_visits (d : IDocInfo) (fuel : Nat)
    (st : List String × List String) (n : String) :
    n ∈ (collectDeps d fuel st n).1 := by
  obtain ⟨v, c⟩ := st
  rw [collectDeps]
  by_cases hc : v.contains n = true
  · rw [if_pos hc]; exact mem_of_contains hc
  · rw [if_neg hc]
    cases fuel with
    | zero => exact List.mem_cons_self ..
    | succ f =>
      exact (foldl_suffix (fun st t => collectDeps_visited_suffix d f st t)
        (candidates d n)
        (n :: v, if resolves d n = true then c ++ [n] else c)).subset
        (List.mem_cons_self ..)

/-- The visited list stays duplicate-free. -/
theorem collectDeps_visited_nodup (d : IDocInfo) :
    ∀ (fuel : Nat) (st : List String × List String) (n : String),
      st.1.Nodup → (collectDeps d fuel st n).1.Nodup := by
  intro fuel
  induction fuel with
  | zero =>
    intro st n hnd
    obtain ⟨v, c⟩ := st
    rw [collectDeps]
    by_cases hc : v.contains n = true
    · rw [if_pos hc]; exact hnd
    · rw [if_neg hc]
      exact List.nodup_cons.mpr ⟨not_mem_of_not_contains hc, hnd⟩
  | succ f ih =>
    intro st n hnd
    obtain ⟨v, c⟩ := st
    rw [collectDeps]
    by_cases hc : v.contains n = true
    · rw [if_pos hc]; exact hnd
    · rw [if_neg hc]
      exact foldl_preserve (P := fun st => st.1.Nodup)
        (fun st t h => ih st t h) (candidates d n)
        (n :: v, if resolves d n = true then c ++ [n] else c)
        (List.nodup_cons.mpr ⟨not_mem_of_not_contains hc, hnd⟩)

/-- The visited list stays inside the candidate universe `U`. -/
theorem collectDeps_visited_inU (d : IDocInfo) (U : List String)
    (hU : ∀ m t, t ∈ candidates d m → t ∈ U) :
    ∀ (fuel : Nat) (st : List String × List String) (n : String),
      n ∈ U → (∀ x ∈ st.1, x ∈ U) →
      ∀ x ∈ (collectDeps d fuel st n).1, x ∈ U := by
  intro fuel
  induction fuel with
  | zero =>
    intro st n hn hst
    obtain ⟨v, c⟩ := st
    rw [collectDeps]
    by_cases hc : v.contains n = true
    · rw [if_pos hc]; exact hst
    · rw [if_neg hc]
      intro x hx
      rcases List.mem_cons.mp hx with rfl | hx'
      · exact hn
      · exact hst x hx'
  | succ f ih =>
    intro st n hn hst
    obtain ⟨v, c⟩ := st
    rw [collectDeps]
    by_cases hc : v.contains n = true
    · rw [if_pos hc]; exact hst
    · rw [if_neg hc]
      refine foldl_preserve_mem (P := fun st => ∀ x ∈ st.1, x ∈ U)
        (Q := fun t => t ∈ U) (fun st t hq hp => ih st t hq hp)
        (candidates d n) (fun t ht => hU n t ht)
        (n :: v, if resolves d n = true then c ++ [n] else c) ?_
      intro x hx
      rcases List.mem_cons.mp hx with rfl | hx'
      · exact hn
      · exact hst x hx'

/-- The collected list holds exactly the visited names that resolve. -/
def CollectedInv (d : IDocInfo) (st : List String × List String) : Prop :=
  ∀ x, x ∈ st.2 ↔ (x ∈ st.1 ∧ resolves d x = true)

theorem collectedInv_mark (d : IDocInfo) (v c : List String) (n : String)
    (hinv : CollectedInv d (v, c)) :
    CollectedInv d (n :: v, if resolves d n = true then c ++ [n] else c) := by
  intro x
  by_cases hr : resolves d n = true
  · rw [if_pos hr]
    constructor
    · intro hx
      rcases List.mem_append.mp hx with hx' | hx'
      · obtain ⟨h1, h2⟩ := (hinv x).mp hx'
        exact ⟨List.mem_cons_of_mem n h1, h2⟩
      · rcases List.mem_singleton.mp hx' with rfl
        exact ⟨List.mem_cons_self .., hr⟩
    · rintro ⟨h1, h2⟩
      rcases List.mem_cons.mp h1 with rfl | h1'
      · exact List.mem_append.mpr (Or.inr (List.mem_singleton.mpr rfl))
      · exact List.mem_append.mpr (Or.inl ((hinv x).mpr ⟨h1', h2⟩))
  · rw [if_neg hr]
    rw [Bool.not_eq_true] at hr
    constructor
    · intro hx
      obtain ⟨h1, h2⟩ := (hinv x).mp hx
      exact ⟨List.mem_cons_of_mem n h1, h2⟩
    · rintro ⟨h1, h2⟩
      rcases List.mem_cons.mp h1 with rfl | h1'
      · rw [hr] at h2; exact absurd h2 Bool.false_ne_true
      · exact (hinv x).mpr ⟨h1', h2⟩

theorem collectDeps_collectedInv (d : IDocInfo) :
    ∀ (fuel : Nat) (st : List String × List String) (n : String),
      CollectedInv d st → CollectedInv d (collectDeps d fuel st n) := by
  intro fuel
  induction fuel with
  | zero =>
    intro st n hinv
    obtain ⟨v, c⟩ := st
    rw [collectDeps]
    by_cases hc : v.contains n = true
    · rw [if_pos hc]; exact hinv
    · rw [if_neg hc]
      exact collectedInv_mark d v c n hinv
  | succ f ih =>
    intro st n hinv
    obtain ⟨v, c⟩ := st
    rw [collectDeps]
    by_cases hc : v.contains n = true
    · rw [if_pos hc]; exact hinv
    · rw [if_neg hc]
      exact foldl_preserve (P := CollectedInv d)
        (fun st t h => ih st t h) (candidates d n)
        (n :: v, if resolves d n = true then c ++ [n] else c)
        (collectedInv_mark d v c n hinv)

end ReactTsdoc
namespace ReactTsdoc

theorem isSome_false_eq_none {α : Type} {o : Option α}
    (h : o.isSome = false) : o = none := by
  cases o with
  | none => rfl
  | some v => simp at h

/-- A name with a candidate resolves (a nonempty candidate list comes
from one of the four recursed-into kind maps). -/
theorem resolves_of_candidates_mem (d : IDocInfo) (n t : String)
    (h : t ∈ candidates d n) : resolves d n = true := by
  by_contra hr
  rw [Bool.not_eq_true, resolves] at hr
  simp only [Bool.or_eq_false_iff] at hr
  obtain ⟨⟨⟨⟨h1, h2⟩, h3⟩, h4⟩, h5⟩ := hr
  rw [candidates, isSome_false_eq_none h1, isSome_false_eq_none h2,
    isSome_false_eq_none h4, isSome_false_eq_none h5] at h
  simp at h

/-- Every candidate of any name lies in `allCandidateNames`. -/
theorem candidates_sub_all (d : IDocInfo) (n t : String)
    (h : t ∈ candidates d n) : t ∈ allCandidateNames d := by
  rw [candidates] at h
  rw [allCandidateNames]
  rcases List.mem_append.mp h with h | h
  · refine List.mem_append.mpr (Or.inl ?_)
    rcases List.mem_append.mp h with h | h
    · refine List.mem_append.mpr (Or.inl ?_)
      rcases List.mem_append.mp h with h | h
      · refine List.mem_append.mpr (Or.inl ?_)
        cases hi : mapLookup d.interfaces n with
        | none => rw [hi] at h; simp at h
        | some intf =>
          rw [hi] at h
          have h' : t ∈ interfaceCandidates intf := h
          exact List.mem_flatMap.mpr ⟨(n, intf), mapLookup_mem _ _ _ hi, h'⟩
      · refine List.mem_append.mpr (Or.inr ?_)
        cases hu : mapLookup d.unions n with
        | none => rw [hu] at h; simp at h
        | some u =>
          rw [hu] at h
          have h' : t ∈ u.items.flatMap extractTypeNames := h
          exact List.mem_flatMap.mpr ⟨(n, u), mapLookup_mem _ _ _ hu, h'⟩
    · refine List.mem_append.mpr (Or.inr ?_)
      cases ha : mapLookup d.typeAliases n with
      | none => rw [ha] at h; simp at h
      | some a =>
        rw [ha] at h
        have h' : t ∈ extractTypeNames a.type := h
        exact List.mem_flatMap.mpr ⟨(n, a), mapLookup_mem _ _ _ ha, h'⟩
  · refine List.mem_append.mpr (Or.inr ?_)
    cases hf : mapLookup d.functions n with
    | none => rw [hf] at h; simp at h
    | some f =>
      rw [hf] at h
      have h' : t ∈ extractTypeNames f.ret ++
          f.parameters.flatMap (fun p => extractTypeNames p.type) := h
      exact List.mem_flatMap.mpr ⟨(n, f), mapLookup_mem _ _ _ hf, h'⟩

/-- Pigeonhole: a duplicate-free list inside `U` at least as long as
`U.dedup` exhausts `U`. -/
theorem visited_full {U v : List String} (hnd : v.Nodup)
    (hsub : ∀ x ∈ v, x ∈ U) (hlen : U.dedup.length ≤ v.length) :
    ∀ y ∈ U, y ∈ v := by
  intro y hy
  have hvU : v.toFinset ⊆ U.toFinset := by
    intro a ha
    rw [List.mem_toFinset] at ha ⊢
    exact hsub a ha
  have heq : v.toFinset = U.toFinset := by
    refine Finset.eq_of_subset_of_card_le hvU ?_
    rw [List.card_toFinset, List.toFinset_card_of_nodup hnd]
    exact hlen
  rw [← List.mem_toFinset, ← heq, List.mem_toFinset] at hy
  exact hy

/-- Every name first visited between `st` and `res` has all its
candidates visited in `res`. -/
def Expanded (d : IDocInfo) (st res : List String × List String) : Prop :=
  ∀ m, m ∈ res.1 → m ∉ st.1 → ∀ t ∈ candidates d m, t ∈ res.1

theorem expanded_refl (d : IDocInfo) (st : List String × List String) :
    Expanded d st st :=
  fun _ hm hnm _ _ => absurd hm hnm

theorem expanded_trans {d : IDocInfo}
    {st st1 st2 : List String × List String} (h1 : Expanded d st st1)
    (h2 : Expanded d st1 st2) (hsub : ∀ x ∈ st1.1, x ∈ st2.1) :
    Expanded d st st2 := by
  intro m hm2 hm0 t ht
  by_cases hm1 : m ∈ st1.1
  · exact hsub t (h1 m hm1 hm0 t ht)
  · exact h2 m hm2 hm1 t ht

end ReactTsdoc
namespace ReactTsdoc

/-- Folding `collectDeps` over a list of names: every name of the list
ends up visited, and the expansion invariant holds across the fold —
assuming the per-call expansion lemma at the same fuel. -/
theorem collectDeps_list_of_main (d : IDocInfo) (U : List String)
    (hU : ∀ m t, t ∈ candidates d m → t ∈ U) (fuel : Nat)
    (hmain : ∀ (st : List String × List String) (n : String),
      st.1.Nodup → (∀ x ∈ st.1, x ∈ U) → n ∈ U →
      U.dedup.length ≤ fuel + st.1.length →
      Expanded d st (collectDeps d fuel st n)) :
    ∀ (l : List String) (st : List String × List String),
      (∀ t ∈ l, t ∈ U) → st.1.Nodup → (∀ x ∈ st.1, x ∈ U) →
      U.dedup.length ≤ fuel + st.1.length →
      Expanded d st (l.foldl (fun s t => collectDeps d fuel s t) st) ∧
      ∀ t ∈ l, t ∈ (l.foldl (fun s t => collectDeps d fuel s t) st).1 := by
  intro l
  induction l with
  | nil =>
    intro st _ _ _ _
    exact ⟨expanded_refl d st, by simp⟩
  | cons t rest ih =>
    intro st hl hnd hsub hlen
    rw [List.foldl_cons]
    have htU : t ∈ U := hl t (List.mem_cons_self ..)
    have h1 : Expanded d st (collectDeps d fuel st t) :=
      hmain st t hnd hsub htU hlen
    have hsuf : st.1 <:+ (collectDeps d fuel st t).1 :=
      collectDeps_visited_suffix d fuel st t
    have hnd1 : (collectDeps d fuel st t).1.Nodup :=
      collectDeps_visited_nodup d fuel st t hnd
    have hsub1 : ∀ x ∈ (collectDeps d fuel st t).1, x ∈ U :=
      collectDeps_visited_inU d U hU fuel st t htU hsub
    have hlen1 : U.dedup.length ≤ fuel + (collectDeps d fuel st t).1.length :=
      le_trans hlen (Nat.add_le_add_left hsuf.length_le fuel)
    obtain ⟨hexp, hmem⟩ := ih (collectDeps d fuel st t)
      (fun t' ht' => hl t' (List.mem_cons_of_mem t ht')) hnd1 hsub1 hlen1
    have hsub2 : ∀ x ∈ (collectDeps d fuel st t).1,
        x ∈ (rest.foldl (fun s t => collectDeps d fuel s t)
          (collectDeps d fuel st t)).1 :=
      fun x hx => (foldl_suffix
        (fun s t => collectDeps_visited_suffix d fuel s t) rest
        (collectDeps d fuel st t)).subset hx
    refine ⟨expanded_trans h1 hexp hsub2, ?_⟩
    intro t' ht'
    rcases List.mem_cons.mp ht' with rfl | ht''
    · exact hsub2 t' (collectDeps_visits d fuel st t')
    · exact hmem t' ht''

/-- Per-call expansion lemma: with enough fuel relative to the unvisited
part of the universe, every name first visited by a `collectDeps` call
gets all its candidates visited too. -/
theorem collectDeps_expanded (d : IDocInfo) (U : List String)
    (hU : ∀ m t, t ∈ candidates d m → t ∈ U) :
    ∀ (fuel : Nat) (st : List String × List String) (n : String),
      st.1.Nodup → (∀ x ∈ st.1, x ∈ U) → n ∈ U →
      U.dedup.length ≤ fuel + st.1.length →
      Expanded d st (collectDeps d fuel st n) := by
  intro fuel
  induction fuel with
  | zero =>
    intro st n hnd hsub hn hlen
    obtain ⟨v, c⟩ := st
    rw [collectDeps]
    by_cases hc : v.contains n = true
    · rw [if_pos hc]; exact expanded_refl d (v, c)
    · rw [if_neg hc]
      exact absurd (visited_full hnd hsub (by simpa using hlen) n hn)
        (not_mem_of_not_contains hc)
  | succ f ih =>
    intro st n hnd hsub hn hlen
    obtain ⟨v, c⟩ := st
    rw [collectDeps]
    by_cases hc : v.contains n = true
    · rw [if_pos hc]; exact expanded_refl d (v, c)
    · rw [if_neg hc]
      have hnv : n ∉ v := not_mem_of_not_contains hc
      have hnd' : (n :: v).Nodup := List.nodup_cons.mpr ⟨hnv, hnd⟩
      have hsub' : ∀ x ∈ (n :: v), x ∈ U := by
        intro x hx
        rcases List.mem_cons.mp hx with rfl | hx'
        · exact hn
        · exact hsub x hx'
      have hlen' : U.dedup.length ≤ f + (n :: v).length := by
        have hlen0 : U.dedup.length ≤ f + 1 + v.length := hlen
        simp only [List.length_cons]
        omega
      obtain ⟨hexp, hmem⟩ := collectDeps_list_of_main d U hU f ih
        (candidates d n)
        (n :: v, if resolves d n = true then c ++ [n] else c)
        (fun t ht => hU n t ht) hnd' hsub' hlen'
      intro m hm hnm t ht
      by_cases hmn : m = n
      · subst hmn
        exact hmem t ht
      · have hm' : m ∉ (n :: v) := by
          intro hx
          rcases List.mem_cons.mp hx with h | h
          · exact hmn h
          · exact hnm h
        exact hexp m hm hm' t ht

end ReactTsdoc
namespace ReactTsdoc

/-- The full `(visited, collectedTypes)` state after saturating from the
seed list (whose second component is `closureFrom`). -/
def closureState (d : IDocInfo) (seeds : List String) :
    List String × List String :=
  seeds.foldl (fun st n => collectDeps d (closureFuel d seeds) st n) ([], [])

theorem closureFrom_eq_closureState (d : IDocInfo) (seeds : List String) :
    closureFrom d seeds = (closureState d seeds).2 := rfl

theorem seeds_sub_universe (d : IDocInfo) (seeds : List String) :
    ∀ t ∈ seeds, t ∈ seeds ++ allCandidateNames d :=
  fun _ ht => List.mem_append.mpr (Or.inl ht)

theorem candidates_sub_universe (d : IDocInfo) (seeds : List String) :
    ∀ m t, t ∈ candidates d m → t ∈ seeds ++ allCandidateNames d :=
  fun m t ht => List.mem_append.mpr (Or.inr (candidates_sub_all d m t ht))

theorem closureState_expanded (d : IDocInfo) (seeds : List String) :
    Expanded d ([], []) (closureState d seeds) ∧
    ∀ s ∈ seeds, s ∈ (closureState d seeds).1 := by
  have hU := candidates_sub_universe d seeds
  have hlen : (seeds ++ allCandidateNames d).dedup.length ≤
      closureFuel d seeds + (([], []) :
        List String × List String).1.length := by
    simp [closureFuel]
  exact collectDeps_list_of_main d (seeds ++ allCandidateNames d) hU
    (closureFuel d seeds)
    (collectDeps_expanded d (seeds ++ allCandidateNames d) hU
      (closureFuel d seeds))
    seeds ([], []) (seeds_sub_universe d seeds) (by simp) (by simp) hlen

theorem closureState_collectedInv (d : IDocInfo) (seeds : List String) :
    CollectedInv d (closureState d seeds) :=
  foldl_preserve (P := CollectedInv d)
    (fun st t h => collectDeps_collectedInv d (closureFuel d seeds) st t h)
    seeds ([], []) (by intro x; simp [CollectedInv])

/-- Closedness of the closure: every collected name resolves, and every
resolving candidate of a collected name is collected. -/
theorem closureFrom_closed (d : IDocInfo) (seeds : List String)
    (n : String) (hn : n ∈ closureFrom d seeds) :
    resolves d n = true ∧
    ∀ t ∈ candidates d n, resolves d t = true → t ∈ closureFrom d seeds := by
  have hinv := closureState_collectedInv d seeds
  obtain ⟨hexp, _⟩ := closureState_expanded d seeds
  rw [closureFrom_eq_closureState] at hn
  obtain ⟨hv, hr⟩ := (hinv n).mp hn
  refine ⟨hr, ?_⟩
  intro t ht hrt
  rw [closureFrom_eq_closureState]
  have hvt : t ∈ (closureState d seeds).1 := hexp n hv (by simp) t ht
  exact (hinv t).mpr ⟨hvt, hrt⟩

/-- If `S` is closed under resolving candidates, `collectDeps` never
collects a name outside `S` when started inside `S`. -/
theorem collectDeps_safe (d : IDocInfo) (S : List String)
    (hS : ∀ n ∈ S, ∀ t ∈ candidates d n, resolves d t = true → t ∈ S) :
    ∀ (fuel : Nat) (st : List String × List String) (n : String),
      (∀ x ∈ st.1, resolves d x = true → x ∈ S) →
      (resolves d n = true → n ∈ S) →
      ∀ x ∈ (collectDeps d fuel st n).1, resolves d x = true → x ∈ S := by
  intro fuel
  induction fuel with
  | zero =>
    intro st n hst hn
    obtain ⟨v, c⟩ := st
    rw [collectDeps]
    by_cases hc : v.contains n = true
    · rw [if_pos hc]; exact hst
    · rw [if_neg hc]
      intro x hx
      rcases List.mem_cons.mp hx with rfl | hx'
      · exact hn
      · exact hst x hx'
  | succ f ih =>
    intro st n hst hn
    obtain ⟨v, c⟩ := st
    rw [collectDeps]
    by_cases hc : v.contains n = true
    · rw [if_pos hc]; exact hst
    · rw [if_neg hc]
      refine foldl_preserve_mem
        (P := fun st => ∀ x ∈ st.1, resolves d x = true → x ∈ S)
        (Q := fun t => resolves d t = true → t ∈ S)
        (fun st t hq hp => ih st t hp hq) (candidates d n) ?_
        (n :: v, if resolves d n = true then c ++ [n] else c) ?_
      · intro t ht hrt
        exact hS n (hn (resolves_of_candidates_mem d n t ht)) t ht hrt
      · intro x hx
        rcases List.mem_cons.mp hx with rfl | hx'
        · exact hn
        · exact hst x hx'

/-- Recomputing the closure over its own result yields the same set. -/
theorem closureFrom_reclosure (d : IDocInfo) (seeds : List String) :
    ∀ x, x ∈ closureFrom d (closureFrom d seeds) ↔ x ∈ closureFrom d seeds := by
  have hSclosed : ∀ n ∈ closureFrom d seeds, ∀ t ∈ candidates d n,
      resolves d t = true → t ∈ closureFrom d seeds :=
    fun n hn => (closureFrom_closed d seeds n hn).2
  have hSres : ∀ n ∈ closureFrom d seeds, resolves d n = true :=
    fun n hn => (closureFrom_closed d seeds n hn).1
  intro x
  constructor
  · intro hx
    rw [closureFrom_eq_closureState] at hx
    obtain ⟨h1, h2⟩ := (closureState_collectedInv d (closureFrom d seeds) x).mp hx
    have hsafe : ∀ y ∈ (closureState d (closureFrom d seeds)).1,
        resolves d y = true → y ∈ closureFrom d seeds :=
      foldl_preserve_mem
        (P := fun st => ∀ y ∈ st.1, resolves d y = true → y ∈ closureFrom d seeds)
        (Q := fun s => resolves d s = true → s ∈ closureFrom d seeds)
        (fun st t hq hp =>
          collectDeps_safe d (closureFrom d seeds) hSclosed _ st t hp hq)
        (closureFrom d seeds) (fun s hs _ => hs) ([], []) (by simp)
    exact hsafe x h1 h2
  · intro hx
    obtain ⟨_, hmem⟩ := closureState_expanded d (closureFrom d seeds)
    rw [closureFrom_eq_closureState]
    exact (closureState_collectedInv d (closureFrom d seeds) x).mpr
      ⟨hmem x hx, hSres x hx⟩

end ReactTsdoc
namespace ReactTsdoc

theorem foldl_congr_inv {σ α : Type} {f₁ f₂ : σ → α → σ} {P : σ → Prop}
    {Q : α → Prop} (hpres : ∀ st t, Q t → P st → P (f₁ st t))
    (heq : ∀ st t, Q t → P st → f₁ st t = f₂ st t) :
    ∀ (l : List α) (st : σ), (∀ t ∈ l, Q t) → P st →
      l.foldl f₁ st = l.foldl f₂ st := by
  intro l
  induction l with
  | nil => intro st _ _; rfl
  | cons t rest ih =>
    intro st hq hp
    rw [List.foldl_cons, List.foldl_cons,
      ← heq st t (hq t (List.mem_cons_self ..)) hp]
    exact ih (f₁ st t) (fun t' ht' => hq t' (List.mem_cons_of_mem t ht'))
      (hpres st t (hq t (List.mem_cons_self ..)) hp)

/-- With enough fuel relative to the unvisited part of the universe, the
result of `collectDeps` does not depend on the fuel: the recursion has
terminated on its own (visited sets grow, the universe is finite). -/
theorem collectDeps_fuel_irrel (d : IDocInfo) (U : List String)
    (hU : ∀ m t, t ∈ candidates d m → t ∈ U) :
    ∀ (f g : Nat) (st : List String × List String) (n : String),
      st.1.Nodup → (∀ x ∈ st.1, x ∈ U) → n ∈ U →
      U.dedup.length ≤ f + st.1.length →
      U.dedup.length ≤ g + st.1.length →
      collectDeps d f st n = collectDeps d g st n := by
  intro f
  induction f with
  | zero =>
    intro g st n hnd hsub hn hlenf _
    obtain ⟨v, c⟩ := st
    by_cases hc : v.contains n = true
    · rw [collectDeps, if_pos hc]
      cases g with
      | zero => rw [collectDeps, if_pos hc]
      | succ g' => rw [collectDeps, if_pos hc]
    · exact absurd (visited_full hnd hsub (by simpa using hlenf) n hn)
        (not_mem_of_not_contains hc)
  | succ f' ih =>
    intro g st n hnd hsub hn hlenf hleng
    obtain ⟨v, c⟩ := st
    by_cases hc : v.contains n = true
    · rw [collectDeps, if_pos hc]
      cases g with
      | zero => rw [collectDeps, if_pos hc]
      | succ g' => rw [collectDeps, if_pos hc]
    · cases g with
      | zero =>
        exact absurd (visited_full hnd hsub (by simpa using hleng) n hn)
          (not_mem_of_not_contains hc)
      | succ g' =>
        rw [collectDeps, if_neg hc, collectDeps, if_neg hc]
        have hnv : n ∉ v := not_mem_of_not_contains hc
        have hnd' : (n :: v).Nodup := List.nodup_cons.mpr ⟨hnv, hnd⟩
        have hsub' : ∀ x ∈ (n :: v), x ∈ U := by
          intro x hx
          rcases List.mem_cons.mp hx with rfl | hx'
          · exact hn
          · exact hsub x hx'
        have hlenf' : U.dedup.length ≤ f' + (n :: v).length := by
          have h0 : U.dedup.length ≤ f' + 1 + v.length := hlenf
          simp only [List.length_cons]
          omega
        have hleng' : U.dedup.length ≤ g' + (n :: v).length := by
          have h0 : U.dedup.length ≤ g' + 1 + v.length := hleng
          simp only [List.length_cons]
          omega
        refine foldl_congr_inv
          (P := fun st => st.1.Nodup ∧ (∀ x ∈ st.1, x ∈ U) ∧
            U.dedup.length ≤ f' + st.1.length ∧
            U.dedup.length ≤ g' + st.1.length)
          (Q := fun t => t ∈ U) ?_ ?_ (candidates d n)
          (n :: v, if resolves d n = true then c ++ [n] else c)
          (fun t ht => hU n t ht) ⟨hnd', hsub', hlenf', hleng'⟩
        · rintro st t hq ⟨p1, p2, p3, p4⟩
          have hsuf := collectDeps_visited_suffix d f' st t
          exact ⟨collectDeps_visited_nodup d f' st t p1,
            collectDeps_visited_inU d U hU f' st t hq p2,
            le_trans p3 (Nat.add_le_add_left hsuf.length_le f'),
            le_trans p4 (Nat.add_le_add_left hsuf.length_le g')⟩
        · rintro st t hq ⟨p1, p2, p3, p4⟩
          exact ih g' st t p1 p2 hq p3 p4

/-- `collectAllDependentTypes` run with surplus fuel. -/
def closureFromFuel (d : IDocInfo) (seeds : List String) (fuel : Nat) :
    List String :=
  (seeds.foldl (fun st n => collectDeps d fuel st n) ([], [])).2

/-- Any fuel at least `closureFuel` computes the same closure: the
recursion depth needed is bounded by the finite universe of names. -/
theorem closureFromFuel_stable (d : IDocInfo) (seeds : List String)
    (k : Nat) :
    closureFromFuel d seeds (closureFuel d seeds + k) =
      closureFrom d seeds := by
  rw [closureFromFuel, closureFrom]
  have hU := candidates_sub_universe d seeds
  have hfold : seeds.foldl
      (fun st n => collectDeps d (closureFuel d seeds + k) st n) ([], []) =
      seeds.foldl
      (fun st n => collectDeps d (closureFuel d seeds) st n) ([], []) := by
    refine foldl_congr_inv
      (P := fun st => st.1.Nodup ∧ (∀ x ∈ st.1, x ∈ seeds ++ allCandidateNames d))
      (Q := fun t => t ∈ seeds ++ allCandidateNames d) ?_ ?_ seeds ([], [])
      (seeds_sub_universe d seeds) ⟨by simp, by simp⟩
    · rintro st t hq ⟨p1, p2⟩
      exact ⟨collectDeps_visited_nodup d (closureFuel d seeds + k) st t p1,
        collectDeps_visited_inU d (seeds ++ allCandidateNames d) hU
          (closureFuel d seeds + k) st t hq p2⟩
    · rintro st t hq ⟨p1, p2⟩
      refine collectDeps_fuel_irrel d (seeds ++ allCandidateNames d) hU
        (closureFuel d seeds + k) (closureFuel d seeds) st t p1 p2 hq ?_ ?_
      · rw [closureFuel]
        omega
      · rw [closureFuel]
        omega
  rw [hfold]

end ReactTsdoc
namespace ReactTsdoc

def closureOracle : TSDocOracle := fun _ => .ok "" [] true false

def closureComp : IReactComponent :=
  { name := "C", propType := "IProps", comment := "/** @export */" }

def closurePropsMember : IInterfaceMember :=
  { name := "x", type := "IOther", comment := "", isOptional := false,
    defaultValue := none, exampleValue := none }

def closurePropsIntf : IInterfaceDeclaration :=
  { name := "IProps", comment := "", code := "interface IProps {}",
    members := [closurePropsMember] }

def closureOtherIntf : IInterfaceDeclaration :=
  { name := "IOther", comment := "", code := "interface IOther {}",
    members := [] }

def closureDocInfo : IDocInfo :=
  { components := [("C", closureComp)],
    interfaces := [("IProps", closurePropsIntf),
      ("IOther", closureOtherIntf)] }

/-- Claim C2: the dependency closure `S = collectAllDependentTypes` is
closed and idempotent — every collected name resolves in the document
model, expanding the type-bearing fields (candidates) of any collected
name yields only names that, when they resolve, are already in `S`, and
recomputing the closure with `S` as the seed surface returns exactly
`S`; moreover the recursion terminates on its own: any recursion-depth
allowance of at least the (finite) universe of declaration names
computes the same closure. -/
theorem claim_closure_idempotent (oracle : TSDocOracle) (d : IDocInfo) :
    (∀ n ∈ collectAllDependentTypes oracle d,
      resolves d n = true ∧
      ∀ t ∈ candidates d n, resolves d t = true →
        t ∈ collectAllDependentTypes oracle d) ∧
    (∀ x, x ∈ closureFrom d (collectAllDependentTypes oracle d) ↔
      x ∈ collectAllDependentTypes oracle d) ∧
    (∀ k, closureFromFuel d (seedNames oracle d)
        (closureFuel d (seedNames oracle d) + k) =
      collectAllDependentTypes oracle d) := by
  refine ⟨?_, ?_, ?_⟩
  · intro n hn
    exact closureFrom_closed d (seedNames oracle d) n hn
  · exact closureFrom_reclosure d (seedNames oracle d)
  · intro k
    exact closureFromFuel_stable d (seedNames oracle d) k

theorem claim_closure_idempotent_witness :
    "IOther" ∈ collectAllDependentTypes closureOracle closureDocInfo :=
  ((claim_closure_idempotent closureOracle closureDocInfo).1 "IProps"
    (by decide)).2 "IOther" (by decide) (by decide)

end ReactTsdoc
